import Mathlib

/-!
Verification development for the Makefile generator.

The Rust sources are shallowly embedded: `parser.rs` (include extraction,
dependency-graph construction), `generate.rs` (partitioning, transitive
closure emission, build-description rendering) and `filename_utils.rs`
become pure Lean functions.  Machine strings are Lean `String`s (lists of
characters); Rust byte indices become character indices, which coincide on
the ASCII inputs the tool manipulates.  A Rust `panic!`/`unwrap` failure is
modelled by a dedicated error outcome, an `io::Error` by another; fuel makes
the recursive walks total, and theorems establish that enough fuel exists.
-/

set_option maxRecDepth 100000

namespace MakeGen

/-- Outcome of a fallible, fuelled computation: a normal result, a run-time
failure (`fail`, covering both reported errors and `unwrap` panics, told
apart by the error type), or fuel exhaustion (`fuelOut`, an artefact of the
embedding which the termination lemmas rule out). -/
inductive RunRes (ε : Type) (σ : Type) where
  | ok (s : σ)
  | fail (e : ε)
  | fuelOut
  deriving DecidableEq, Repr

namespace RunRes

def isOk {ε σ : Type} : RunRes ε σ → Bool
  | .ok _ => true
  | _ => false

def terminated {ε σ : Type} : RunRes ε σ → Bool
  | .fuelOut => false
  | _ => true

end RunRes

/-! ## `filename_utils.rs` -/

/-- Rust `str::find` over a character list: index of the first element
satisfying the predicate. -/
def find_idx {α : Type} (p : α → Bool) : List α → Option Nat
  | [] => none
  | a :: t => if p a then some 0 else (find_idx p t).map (· + 1)

/-- `strip_extension` from `filename_utils.rs`: Rust finds the FIRST `'.'`
(`source.find('.')`) and slices everything before it, returning the whole
string when there is no dot. -/
def strip_extension (source : String) : String :=
  match find_idx (· == '.') source.data with
  | some ext_index => ⟨source.data.take ext_index⟩
  | none => source

/-- Basename of a path: the component after the last `'/'`. -/
def base_name (p : String) : String :=
  ⟨(p.data.reverse.takeWhile (fun c => c != '/')).reverse⟩

/-- `Path::extension` as used by `has_extension`: the part of the file name
after the last `'.'`; `none` when the name has no dot or when the only dot
is the leading one of a hidden file. -/
def file_extension (p : String) : Option String :=
  let base := base_name p
  match find_idx (· == '.') base.data.reverse with
  | none => none
  | some k =>
    let pos := base.data.length - 1 - k
    if pos = 0 then none else some ⟨base.data.drop (pos + 1)⟩

/-- `has_extension` from `filename_utils.rs`. -/
def has_extension (p : String) (ext : String) : Bool :=
  file_extension p == some ext

/-! ## Include extraction (`parser.rs`) -/

inductive IncludeFile where
  | System (name : String)
  | User (name : String)
  deriving DecidableEq, Repr

/-- `extract_include_filename` from `parser.rs`.  Rust takes
`line.find('<')` and `line.find('>')`; if both exist it slices
`line[(start+1)..end]` (a panic when the first `'>'` sits before the first
`'<'`, modelled as `none`); otherwise it unwraps the first `'"'` and the
next `'"'` after it (each `unwrap` panicking — `none` — when absent). -/
def extract_include_filename (line : String) : Option IncludeFile :=
  let cs := line.data
  match find_idx (· == '<') cs, find_idx (· == '>') cs with
  | some start_index, some end_index =>
    if start_index + 1 ≤ end_index then
      some (.System ⟨(cs.take end_index).drop (start_index + 1)⟩)
    else
      none
  | _, _ =>
    match find_idx (· == '"') cs with
    | none => none
    | some q1 =>
      match find_idx (· == '"') (cs.drop (q1 + 1)) with
      | none => none
      | some d => some (.User ⟨(cs.take (q1 + 1 + d)).drop (q1 + 1)⟩)

/-- Rust's `str::trim_start`. -/
def trim_start (s : String) : String :=
  ⟨s.data.dropWhile Char.isWhitespace⟩

/-- The include-directive prefix check:
`line.trim_start().starts_with("#include")`. -/
def is_include_line (line : String) : Bool :=
  "#include".data.isPrefixOf (trim_start line).data

/-- Split a character stream into lines at `'\n'` (accumulator holds the
current line reversed). -/
def split_lines : List Char → List Char → List String
  | [], acc => [⟨acc.reverse⟩]
  | c :: rest, acc =>
    if c = '\n' then ⟨acc.reverse⟩ :: split_lines rest []
    else split_lines rest (c :: acc)

/-- `source.lines()`: split at newlines (the `\r`-stripping and
final-empty-line conventions of Rust are invisible behind the `#include`
prefix filter). -/
def source_lines (s : String) : List String :=
  split_lines s.data []

example : extract_include_filename "#include <math.h>" = some (.System "math.h") := by decide
example : extract_include_filename "#include \"a.h\"" = some (.User "a.h") := by decide
example : extract_include_filename "#include foo" = none := by decide
example : strip_extension "v2.0/main.c" = "v2" := by decide
example : has_extension "src/main.c" "c" = true := by decide
example : has_extension ".hidden" "hidden" = false := by decide

/-! ## Name mangling helpers (`generate.rs`) -/

/-- `escape_folder`: `filename.replace('/', "_")`. -/
def escape_folder (filename : String) : String :=
  ⟨filename.data.map (fun c => if c = '/' then '_' else c)⟩

/-- Rust `str::to_ascii_uppercase` (Lean's `Char.toUpper` is the same
ASCII-only mapping). -/
def to_ascii_uppercase (s : String) : String :=
  ⟨s.data.map Char.toUpper⟩

/-- `file_dependencies_var_name` from `generate.rs`. -/
def file_dependencies_var_name (filename category : String) : String :=
  to_ascii_uppercase (escape_folder filename) ++ "_" ++ category ++ "_DEPS"

/-- `source_file_dependencies_var_name` from `generate.rs`. -/
def source_file_dependencies_var_name (filename : String) : String :=
  file_dependencies_var_name filename "SOURCE"

/-- `object_file_dependencies_var_name` from `generate.rs`. -/
def object_file_dependencies_var_name (filename : String) : String :=
  file_dependencies_var_name filename "OBJECT"

/-! ## The dependency-graph builder (`parser.rs`) -/

/-- `DependencyMap`: file path → (resolved user includes in text order,
`has_main` flag).  The Rust `HashMap` is embedded as an association list;
the code never overwrites an entry, so first-match lookup agrees with the
hash map. -/
abbrev DependencyMap := List (String × (List String × Bool))

/-- The `DLL_MAP` table of `parser.rs`. -/
def dll_map : List (String × String) :=
  [("math.h", "m"), ("pthread.h", "pthread"), ("ncurses.h", "ncurses")]

/-- The body of `get_include_files_and_update_dlls`: walk the lines that
pass the `#include` prefix filter, push user includes, and append the
linkage name of a recognised system header to `dlls` when not already
present.  `none` models the panic of `extract_include_filename`. -/
def process_include_lines :
    List String → List String → List String → Option (List String × List String)
  | [], include_files, dlls => some (include_files, dlls)
  | line :: rest, include_files, dlls =>
    if is_include_line line then
      match extract_include_filename line with
      | none => none
      | some (.System f) =>
        match dll_map.lookup f with
        | some linkage_name =>
          if dlls.contains linkage_name then
            process_include_lines rest include_files dlls
          else
            process_include_lines rest include_files (dlls ++ [linkage_name])
        | none => process_include_lines rest include_files dlls
      | some (.User f) => process_include_lines rest (include_files ++ [f]) dlls
    else
      process_include_lines rest include_files dlls

/-- `get_include_files_and_update_dlls` from `parser.rs`. -/
def get_include_files_and_update_dlls (source : String) (dlls : List String) :
    Option (List String × List String) :=
  process_include_lines (source_lines source) [] dlls

/-- Rust `str::contains` with a string pattern: contiguous-substring
search. -/
def contains_sub (hay needle : String) : Bool :=
  decide (needle.data <:+: hay.data)

/-- The `contents.contains("main(")` entry-point heuristic. -/
def has_main_marker (contents : String) : Bool :=
  contains_sub contents "main("

/-- Errors of the graph-construction pass.  `ioError` covers
`fs::read_to_string` and `canonicalize` failures (a reported error result),
`panicked` models the `unwrap` panics inside include extraction (an
uncontrolled process abort). -/
inductive ParseError where
  | ioError (path : String)
  | panicked (path : String)
  deriving DecidableEq, Repr

/-- Mutable state threaded through `read_file_and_get_include_files_recursively`
(the Rust `ParseContext`; `seen` is the per-top-level-file visitation set). -/
structure PCtx where
  map : DependencyMap
  dlls : List String
  seen : List String
  deriving DecidableEq, Repr

/-- Generic sequential fold over a list of names with a fallible visitor:
the shape shared by the dependency loop of the builder and by both closure
writers. -/
def fold_visit {ε σ : Type} (visit : String → σ → RunRes ε σ) :
    List String → σ → RunRes ε σ
  | [], s => .ok s
  | x :: rest, s =>
    match visit x s with
    | .ok s' => fold_visit visit rest s'
    | .fail e => .fail e
    | .fuelOut => .fuelOut

/-- `read_file_and_get_include_files_recursively` from `parser.rs` over an
abstract file system `fs` (path → UTF-8 content).  Path canonicalisation is
embedded as the identity — include texts are taken to be canonical
project-relative paths, and `canonicalize` fails exactly when the resolved
path does not exist in `fs`.  Fuel bounds the recursion depth. -/
def read_file_and_get_include_files_recursively (fs : List (String × String)) :
    Nat → String → PCtx → RunRes ParseError PCtx
  | 0, _, _ => .fuelOut
  | fuel + 1, filename, ctx =>
    match fs.lookup filename with
    | none => .fail (.ioError filename)
    | some contents =>
      let has_main := has_main_marker contents
      match get_include_files_and_update_dlls contents ctx.dlls with
      | none => .fail (.panicked filename)
      | some (include_files, dlls') =>
        match
          fold_visit
            (fun inc c =>
              if (fs.lookup inc).isNone then .fail (.ioError inc)
              else if (c.map.lookup inc).isNone && ! c.seen.contains inc then
                read_file_and_get_include_files_recursively fs fuel inc
                  { c with seen := inc :: c.seen }
              else .ok c)
            include_files { ctx with dlls := dlls' }
        with
        | .ok ctx2 =>
          .ok (if (ctx2.map.lookup filename).isSome then ctx2
               else { ctx2 with map := ctx2.map ++ [(filename, (include_files, has_main))] })
        | r => r

/-- Root files of the walk: regular files whose extension matches the
configured one (the hidden-entry exclusion belongs to the out-of-scope
traversal collaborator, so `fs` is taken to be its output). -/
def parse_roots (fs : List (String × String)) (ext : String) : List String :=
  (fs.map Prod.fst).filter (fun n => has_extension n ext)

/-- Result of `Parser::parse`. -/
structure ParseResult where
  dependency_map : DependencyMap
  dlls : List String
  deriving DecidableEq, Repr

/-- The root loop of `Parser::parse`: each root gets a fresh `seen` set
while `dependency_map` and `dlls` persist. -/
def parse_loop (fs : List (String × String)) (fuel : Nat) :
    List String → DependencyMap → List String → RunRes ParseError ParseResult
  | [], map, dlls => .ok ⟨map, dlls⟩
  | root :: rest, map, dlls =>
    match read_file_and_get_include_files_recursively fs fuel root ⟨map, dlls, []⟩ with
    | .ok ctx => parse_loop fs fuel rest ctx.map ctx.dlls
    | .fail e => .fail e
    | .fuelOut => .fuelOut

/-- `Parser::parse` at a given fuel. -/
def parse_run (fs : List (String × String)) (ext : String) (fuel : Nat) :
    RunRes ParseError ParseResult :=
  parse_loop fs fuel (parse_roots fs ext) [] []

/-- `Parser::parse` with the fuel the termination lemmas show sufficient. -/
def parse_project (fs : List (String × String)) (ext : String) :
    RunRes ParseError ParseResult :=
  parse_run fs ext (fs.length + 1)

/-! ## Transitive-closure writers (`generate.rs`) -/

/-- The chunk `write!(makefile, "$(ODIR)/{}.o ", …)` emits for one visited
file. -/
def object_chunk (filename : String) : String :=
  "$(ODIR)/" ++ escape_folder (strip_extension filename) ++ ".o "

/-- `write_object_file_dependencies_r` from `generate.rs`: state is the
pair (chunks written so far, seen set).  A `.fail` result models the
`dependency_map.get(filename).unwrap()` panic on an unknown key. -/
def write_object_file_dependencies_r (g : DependencyMap) (ext : String) :
    Nat → String → List String × List String → RunRes String (List String × List String)
  | 0, _, _ => .fuelOut
  | fuel + 1, filename, st =>
    let out := st.1 ++ [object_chunk filename]
    let seen := filename :: st.2
    match g.lookup filename with
    | none => .fail filename
    | some (dependencies, _) =>
      fold_visit
        (fun dep st =>
          let dependency := strip_extension dep ++ "." ++ ext
          if (g.lookup dependency).isSome && ! st.2.contains dependency then
            write_object_file_dependencies_r g ext fuel dependency st
          else .ok st)
        dependencies (out, seen)

/-- `write_object_file_dependencies`: fresh seen set per closure request. -/
def write_object_file_dependencies (g : DependencyMap) (ext : String) (fuel : Nat)
    (filename : String) : RunRes String (List String × List String) :=
  write_object_file_dependencies_r g ext fuel filename ([], [])

/-- `write_source_file_dependecies_r` from `generate.rs` (the spelling is
the source's): writes the visited file, then every not-yet-seen direct
include, and recurses into the same-stem `<stem>.<ext>` counterpart of each
include when that counterpart is a key of the graph. -/
def write_source_file_dependecies_r (g : DependencyMap) (ext : String) :
    Nat → String → List String × List String → RunRes String (List String × List String)
  | 0, _, _ => .fuelOut
  | fuel + 1, filename, st =>
    let out := st.1 ++ [filename ++ " "]
    let seen := filename :: st.2
    match g.lookup filename with
    | none => .fail filename
    | some (dependencies, _) =>
      fold_visit
        (fun dep st =>
          let st :=
            if ! st.2.contains dep then (st.1 ++ [dep ++ " "], dep :: st.2) else st
          let dependency := strip_extension dep ++ "." ++ ext
          if (g.lookup dependency).isSome && ! st.2.contains dependency then
            write_source_file_dependecies_r g ext fuel dependency st
          else .ok st)
        dependencies (out, seen)

/-- `write_source_file_dependencies`: fresh seen set per closure request. -/
def write_source_file_dependencies (g : DependencyMap) (ext : String) (fuel : Nat)
    (filename : String) : RunRes String (List String × List String) :=
  write_source_file_dependecies_r g ext fuel filename ([], [])

/-! ## Partitioning and build-description emission (`generate.rs`) -/

/-- The CLI-supplied configuration (`cli.rs`); the three category sets are
kept as lists — only membership is ever queried on them. -/
structure Cli where
  main_file : String
  compiler : String
  extension : String
  binary : String
  standard : String
  opt_level : String
  tests : List String
  benchmarks : List String
  examples : List String
  deriving DecidableEq, Repr

/-- The `contained_in_partition!` check of `PartitionedFiles::partition`:
some configured identifier, once extension-stripped, is a string prefix of
the running (already-stripped) file, or equals it. -/
def contained_in_partition (ids : List String) (running : String) : Bool :=
  ids.any (fun f =>
    let f := strip_extension f
    f.data.isPrefixOf running.data || running == f)

structure PartitionedFiles where
  standalone : List String
  tests : List String
  benchmarks : List String
  examples : List String
  deriving DecidableEq, Repr

/-- `map.keys().filter(has main).map(strip_extension)`.  The entry's own
flag replaces the `map.get(k).unwrap().1` lookup (identical on the
duplicate-free maps the builder produces). -/
def with_main_stems (map : DependencyMap) : List String :=
  (map.filter (fun e => e.2.2)).map (fun e => strip_extension e.1)

/-- `PartitionedFiles::partition` from `generate.rs`: three independent
filters plus the leftover `standalone` list. -/
def PartitionedFiles.partition (cli : Cli) (map : DependencyMap) : PartitionedFiles :=
  let with_main := with_main_stems map
  let tests := with_main.filter (fun v => contained_in_partition cli.tests v)
  let benchmarks := with_main.filter (fun v => contained_in_partition cli.benchmarks v)
  let examples := with_main.filter (fun v => contained_in_partition cli.examples v)
  let standalone := with_main.filter
    (fun v => ! tests.contains v && ! benchmarks.contains v && ! examples.contains v)
  ⟨standalone, tests, benchmarks, examples⟩

/-- `generate_compiler_variables`: its single `writeln!` chunk. -/
def generate_compiler_variables (cli : Cli) (dlls : List String) : String :=
  "CC := " ++ cli.compiler ++ "\nCFLAGS := -Wall\nCFLAGS += -std=" ++ cli.standard ++
    "\nCFLAGS += -" ++ cli.opt_level ++ "\nLFLAGS := " ++
    String.intercalate " " (dlls.map (fun dll => "-l" ++ dll)) ++ "\n"

/-- Sequence a chunk-producing emitter over a list, concatenating the
chunks (failure aborts; the chunks already sent to the file before a
failure are accounted for by the writer model only up to this
granularity). -/
def emit_each (f : String → RunRes String (List String)) :
    List String → RunRes String (List String)
  | [] => .ok []
  | x :: rest =>
    match f x with
    | .ok cs =>
      match emit_each f rest with
      | .ok cs' => .ok (cs ++ cs')
      | r => r
    | .fail e => .fail e
    | .fuelOut => .fuelOut

/-- `generate_source_file_dependencies_variable_for_file`. -/
def generate_source_file_dependencies_variable_for_file (g : DependencyMap) (ext : String)
    (fuel : Nat) (file : String) : RunRes String (List String) :=
  match write_source_file_dependencies g ext fuel file with
  | .ok (out, _) =>
    .ok ([source_file_dependencies_var_name (strip_extension file) ++ " := "] ++ out ++ ["\n"])
  | .fail e => .fail e
  | .fuelOut => .fuelOut

/-- `generate_object_file_dependencies_variable_for_file`. -/
def generate_object_file_dependencies_variable_for_file (g : DependencyMap) (ext : String)
    (fuel : Nat) (file : String) : RunRes String (List String) :=
  match write_object_file_dependencies g ext fuel file with
  | .ok (out, _) =>
    .ok ([object_file_dependencies_var_name (strip_extension file) ++ " := "] ++ out ++ ["\n"])
  | .fail e => .fail e
  | .fuelOut => .fuelOut

/-- `generate_file_variables`: the `ODIR` block plus one source-dependency
variable per compilable graph key. -/
def generate_file_variables (g : DependencyMap) (ext : String) (fuel : Nat) :
    RunRes String (List String) :=
  let files := (g.map Prod.fst).filter (fun f => has_extension f ext)
  match emit_each (generate_source_file_dependencies_variable_for_file g ext fuel) files with
  | .ok cs => .ok (["\nODIR := .OBJ\n\n"] ++ cs ++ ["\n"])
  | r => r

/-- The link rule `writeln!` of the standalone-binaries loop (the target
name is escaped and possibly `bin_`-prefixed while the `-o` argument is the
raw `name`). -/
def standalone_rule_chunk (cli : Cli) (bin_file : String) : String :=
  let main_file := strip_extension cli.main_file
  let pn := if bin_file ≠ main_file then ("bin_", bin_file) else ("", cli.binary)
  let var := object_file_dependencies_var_name bin_file
  "\n" ++ pn.1 ++ escape_folder pn.2 ++ ": $(ODIR) $(" ++ var ++ ")\n\t$(CC) $(" ++
    var ++ ") -o " ++ pn.2 ++ " $(LFLAGS)\n\n"

/-- The entry a standalone binary contributes to the `binaries:` line. -/
def standalone_binaries_entry (cli : Cli) (bin_file : String) : String :=
  let main_file := strip_extension cli.main_file
  let pn := if bin_file ≠ main_file then ("bin_", bin_file) else ("", cli.binary)
  pn.1 ++ escape_folder pn.2 ++ " "

/-- The link rule `writeln!` of the `generate_target!` expansion for the
`tests`/`benchmarks`/`examples` categories (no `$(LFLAGS)` here). -/
def category_rule_chunk (file : String) : String :=
  let var := object_file_dependencies_var_name file
  "\n" ++ escape_folder file ++ ": $(ODIR) $(" ++ var ++ ")\n\t$(CC) $(" ++
    var ++ ") -o " ++ file ++ "\n\n"

/-- One category block of `generate_target!`: header line naming every
member, then per member the object-dependency variable and the link rule. -/
def generate_category_target (g : DependencyMap) (ext : String) (fuel : Nat)
    (label : String) (members : List String) : RunRes String (List String) :=
  if members.length > 0 then
    match
      emit_each
        (fun file =>
          match generate_object_file_dependencies_variable_for_file g ext fuel
              (file ++ "." ++ ext) with
          | .ok cs => .ok (cs ++ [category_rule_chunk file])
          | r => r)
        members
    with
    | .ok cs =>
      .ok ([label ++ ": "] ++ members.map (fun file => escape_folder file ++ " ") ++
        ["\n\n"] ++ cs)
    | r => r
  else .ok []

/-- The per-compilable-file compile rule of `generate_targets`. -/
def compile_rule_chunk (ext : String) (stem : String) : String :=
  "$(ODIR)/" ++ escape_folder stem ++ ".o: $(ODIR) $(" ++
    source_file_dependencies_var_name stem ++ ")\n\t$(CC) -c " ++ stem ++ "." ++ ext ++
    " -o $(ODIR)/" ++ escape_folder stem ++ ".o\n\n"

/-- `generate_clean_target`. -/
def generate_clean_target (cli : Cli) (partitioned : PartitionedFiles) : List String :=
  let main_file := strip_extension cli.main_file
  let all_files :=
    (partitioned.standalone.map (fun f => if f ≠ main_file then f else cli.binary)) ++
      partitioned.tests ++ partitioned.benchmarks ++ partitioned.examples
  [".PHONY: clean\nclean:\n\trm -rf .OBJ "] ++ all_files.map (fun f => f ++ " ") ++ ["\n"]

/-- `generate_targets`: the `all`/`$(ODIR)` preamble, the `binaries` line,
per-standalone object variables and link rules, the three category blocks,
the compile rules, and the clean target. -/
def generate_targets (cli : Cli) (g : DependencyMap) (partitioned : PartitionedFiles)
    (ext : String) (fuel : Nat) : RunRes String (List String) :=
  let pre := ["all: binaries\n\n$(ODIR):\n\t@mkdir $(ODIR)\n\n", "binaries: "] ++
    partitioned.standalone.map (standalone_binaries_entry cli) ++ ["\n\n"]
  match
    emit_each
      (fun bin_file =>
        match generate_object_file_dependencies_variable_for_file g ext fuel
            (bin_file ++ "." ++ ext) with
        | .ok cs => .ok (cs ++ [standalone_rule_chunk cli bin_file])
        | r => r)
      partitioned.standalone
  with
  | .ok sta =>
    match generate_category_target g ext fuel "tests" partitioned.tests with
    | .ok te =>
      match generate_category_target g ext fuel "benchmarks" partitioned.benchmarks with
      | .ok be =>
        match generate_category_target g ext fuel "examples" partitioned.examples with
        | .ok ex =>
          let stems :=
            ((g.map Prod.fst).filter (fun k => has_extension k ext)).map strip_extension
          .ok (pre ++ sta ++ te ++ be ++ ex ++ stems.map (compile_rule_chunk ext) ++
            generate_clean_target cli partitioned)
        | r => r
      | r => r
    | r => r
  | r => r

/-- The whole body of `generate_makefile` as the ordered list of chunks the
`write!`/`writeln!` calls send to the `Makefile` handle. -/
def generate_makefile_plan (cli : Cli) (pr : ParseResult) (fuel : Nat) :
    RunRes String (List String) :=
  let partitioned := PartitionedFiles.partition cli pr.dependency_map
  match generate_file_variables pr.dependency_map cli.extension fuel with
  | .ok fv =>
    match generate_targets cli pr.dependency_map partitioned cli.extension fuel with
    | .ok tg => .ok ([generate_compiler_variables cli pr.dlls] ++ fv ++ tg)
    | r => r
  | r => r

/-! ## File-state semantics of a run (`main.rs` + `generate_makefile`) -/

/-- State of the `Makefile` path after a run: its textual content and
whether the run reported failure. -/
structure MakefileState where
  content : String
  failed : Bool
  deriving DecidableEq, Repr

/-- `generate_makefile` against a disk model: `File::create("Makefile")` is
the very first action and truncates the file; afterwards each chunk is one
write.  `budget` counts the file operations that succeed before the disk
starts failing (`budget = 0`: even `create` fails, leaving `old` intact).
On an internal failure of the generation pipeline the file has already been
truncated; the model keeps the content it can account for. -/
def run_generate (cli : Cli) (pr : ParseResult) (fuel budget : Nat) (old : String) :
    MakefileState :=
  if budget = 0 then ⟨old, true⟩
  else
    match generate_makefile_plan cli pr fuel with
    | .ok chunks =>
      if chunks.length ≤ budget - 1 then ⟨String.join chunks, false⟩
      else ⟨String.join (chunks.take (budget - 1)), true⟩
    | _ => ⟨"", true⟩

/-- `main`: parse the project, then generate; a parse failure happens
before `File::create` and leaves the pre-existing `Makefile` untouched. -/
def run_main (fs : List (String × String)) (cli : Cli) (budget : Nat) (old : String) :
    MakefileState :=
  match parse_project fs cli.extension with
  | .ok pr => run_generate cli pr (pr.dependency_map.length + 1) budget old
  | _ => ⟨old, true⟩

/-! ## Generic lemmas about `fold_visit` -/

/-- Soundness scheme for `fold_visit`: an invariant `I`, a reflexive and
transitive step relation `R`, and a per-element postcondition `Q` stable
under `R` are all established by a successful fold. -/
theorem fold_visit_sound {ε σ : Type} (visit : String → σ → RunRes ε σ)
    (I : σ → Prop) (R : σ → σ → Prop) (Q : String → σ → Prop)
    (hrefl : ∀ s, R s s)
    (htrans : ∀ a b c, R a b → R b c → R a c)
    (hstep : ∀ x s s', I s → visit x s = .ok s' → I s' ∧ R s s' ∧ Q x s')
    (hpres : ∀ x s s', Q x s → R s s' → Q x s') :
    ∀ l s s', I s → fold_visit visit l s = .ok s' →
      I s' ∧ R s s' ∧ ∀ x ∈ l, Q x s' := by
  intro l
  induction l with
  | nil =>
    intro s s' hI h
    simp only [fold_visit] at h
    cases h
    exact ⟨hI, hrefl s, by simp⟩
  | cons x rest ih =>
    intro s s' hI h
    simp only [fold_visit] at h
    cases hv : visit x s with
    | ok s₁ =>
      rw [hv] at h
      obtain ⟨hI₁, hR₁, hQ₁⟩ := hstep x s s₁ hI hv
      obtain ⟨hI', hR', hall⟩ := ih s₁ s' hI₁ h
      refine ⟨hI', htrans _ _ _ hR₁ hR', ?_⟩
      intro y hy
      rcases List.mem_cons.mp hy with rfl | hy
      · exact hpres y s₁ s' hQ₁ hR'
      · exact hall y hy
    | fail e => rw [hv] at h; cases h
    | fuelOut => rw [hv] at h; cases h

/-- A fold whose steps never run out of fuel (under an invariant preserved
by successful steps) never runs out of fuel. -/
theorem fold_visit_no_fuelOut {ε σ : Type} (visit : String → σ → RunRes ε σ)
    (I : σ → Prop)
    (hstep : ∀ x s, I s → visit x s ≠ .fuelOut)
    (hpres : ∀ x s s', I s → visit x s = .ok s' → I s') :
    ∀ l s, I s → fold_visit visit l s ≠ .fuelOut := by
  intro l
  induction l with
  | nil => intro s _ h; simp only [fold_visit] at h; exact RunRes.noConfusion h
  | cons x rest ih =>
    intro s hI h
    simp only [fold_visit] at h
    cases hv : visit x s with
    | ok s₁ => rw [hv] at h; exact ih s₁ (hpres x s s₁ hI hv) h
    | fail e => rw [hv] at h; exact RunRes.noConfusion h
    | fuelOut => exact hstep x s hI hv

/-- A fold whose steps never fail (under a preserved invariant) never
fails. -/
theorem fold_visit_no_fail {ε σ : Type} (visit : String → σ → RunRes ε σ)
    (I : σ → Prop)
    (hstep : ∀ x s e, I s → visit x s ≠ .fail e)
    (hpres : ∀ x s s', I s → visit x s = .ok s' → I s') :
    ∀ l s e, I s → fold_visit visit l s ≠ .fail e := by
  intro l
  induction l with
  | nil => intro s e _ h; simp only [fold_visit] at h; exact RunRes.noConfusion h
  | cons x rest ih =>
    intro s e hI h
    simp only [fold_visit] at h
    cases hv : visit x s with
    | ok s₁ => rw [hv] at h; exact ih s₁ e (hpres x s s₁ hI hv) h
    | fail e' =>
      rw [hv] at h
      cases h
      exact hstep x s e hI hv
    | fuelOut => rw [hv] at h; exact RunRes.noConfusion h

/-! ## The fuel measure -/

/-- Number of names not yet in the seen set; the measure that shrinks at
every recursive visit. -/
def unseen_count (names : List String) (seen : List String) : Nat :=
  (names.filter (fun n => ! seen.contains n)).length

theorem contains_true_iff (l : List String) (x : String) :
    l.contains x = true ↔ x ∈ l := by
  simp [List.contains, List.elem_iff]

theorem not_contains_true_iff (l : List String) (x : String) :
    (! l.contains x) = true ↔ x ∉ l := by
  simp [Bool.not_eq_true', ← Bool.not_eq_true, contains_true_iff]

theorem length_filter_le_of_imp {α : Type} (p q : α → Bool)
    (h : ∀ a, q a = true → p a = true) :
    ∀ l : List α, (l.filter q).length ≤ (l.filter p).length := by
  intro l
  induction l with
  | nil => simp
  | cons a l ih =>
    rw [List.filter_cons, List.filter_cons]
    by_cases hq : q a = true
    · rw [if_pos hq, if_pos (h a hq)]
      simp only [List.length_cons]
      omega
    · rw [if_neg hq]
      by_cases hp : p a = true
      · rw [if_pos hp]
        simp only [List.length_cons]
        omega
      · rw [if_neg hp]
        exact ih

theorem length_filter_lt_of_mem {α : Type} (p q : α → Bool)
    (h : ∀ a, q a = true → p a = true) (x : α) :
    ∀ l : List α, x ∈ l → p x = true → q x = false →
      (l.filter q).length < (l.filter p).length := by
  intro l
  induction l with
  | nil => intro hx; cases hx
  | cons a l ih =>
    intro hx hpx hqx
    rcases List.mem_cons.mp hx with rfl | hx
    · rw [List.filter_cons, List.filter_cons, if_neg (by simp [hqx]), if_pos hpx]
      simp only [List.length_cons]
      have := length_filter_le_of_imp p q h l
      omega
    · rw [List.filter_cons, List.filter_cons]
      by_cases hq : q a = true
      · rw [if_pos hq, if_pos (h a hq)]
        simp only [List.length_cons]
        have := ih hx hpx hqx
        omega
      · rw [if_neg hq]
        by_cases hp : p a = true
        · rw [if_pos hp]
          simp only [List.length_cons]
          have := ih hx hpx hqx
          omega
        · rw [if_neg hp]
          exact ih hx hpx hqx

/-- Growing the seen set never grows the measure. -/
theorem unseen_count_mono (names : List String) (seen seen' : List String)
    (h : ∀ x ∈ seen, x ∈ seen') : unseen_count names seen' ≤ unseen_count names seen := by
  apply length_filter_le_of_imp
  intro a ha
  rw [not_contains_true_iff] at ha ⊢
  intro hmem
  exact ha (h a hmem)

/-- Seeing a fresh name from the list strictly shrinks the measure. -/
theorem unseen_count_lt (names : List String) (seen : List String) (x : String)
    (hx : x ∈ names) (hnx : x ∉ seen) :
    unseen_count names (x :: seen) < unseen_count names seen := by
  apply length_filter_lt_of_mem _ _ _ x _ hx
  · rw [not_contains_true_iff]; exact hnx
  · rw [← Bool.not_eq_true, not_contains_true_iff]
    simp
  · intro a ha
    rw [not_contains_true_iff] at ha ⊢
    intro hmem
    exact ha (List.mem_cons_of_mem _ hmem)

theorem lookup_some_mem_keys {β : Type} (l : List (String × β)) (k : String) (v : β)
    (h : l.lookup k = some v) : k ∈ l.map Prod.fst := by
  induction l with
  | nil => simp [List.lookup] at h
  | cons a l ih =>
    simp only [List.lookup] at h
    cases hk : (k == a.1) with
    | true =>
      have : k = a.1 := by simpa using hk
      simp [this]
    | false =>
      rw [hk] at h
      simpa using Or.inr (ih h)

theorem lookup_isSome_mem_keys {β : Type} (l : List (String × β)) (k : String)
    (h : (l.lookup k).isSome = true) : k ∈ l.map Prod.fst := by
  rcases Option.isSome_iff_exists.mp h with ⟨v, hv⟩
  exact lookup_some_mem_keys l k v hv

/-! ## Soundness of the object-dependency closure traversal -/

/-- The direct-include list a graph key carries (empty for non-keys). -/
def deps_of (g : DependencyMap) (x : String) : List String :=
  match g.lookup x with
  | some e => e.1
  | none => []

/-- The `format!("{}.{}", strip_extension(d), extension)` rewriting every
dependency undergoes before the closure recursions. -/
def mapped_dep (ext d : String) : String :=
  strip_extension d ++ "." ++ ext

/-- What one (sub)run of `write_object_file_dependencies_r` does to its
state: it visits a block `Δ` of fresh files, pushes them onto the seen set,
emits exactly their object chunks in visit order, and leaves every
graph-resident mapped dependency of a visited file inside the final seen
set. -/
def obj_delta (g : DependencyMap) (ext : String) (st st' : List String × List String) :
    Prop :=
  ∃ Δ : List String, st'.2 = Δ.reverse ++ st.2 ∧ st'.1 = st.1 ++ Δ.map object_chunk ∧
    Δ.Nodup ∧ (∀ x ∈ Δ, x ∉ st.2) ∧ (∀ x ∈ Δ, (g.lookup x).isSome = true) ∧
    (∀ x ∈ Δ, ∀ d ∈ deps_of g x,
      (g.lookup (mapped_dep ext d)).isSome = true → mapped_dep ext d ∈ st'.2)

theorem obj_delta_refl (g : DependencyMap) (ext : String) (st : List String × List String) :
    obj_delta g ext st st := by
  refine ⟨[], by simp, by simp, List.nodup_nil, ?_, ?_, ?_⟩ <;> simp

theorem obj_delta_seen_sub (g : DependencyMap) (ext : String)
    {st st' : List String × List String} (h : obj_delta g ext st st') :
    ∀ x ∈ st.2, x ∈ st'.2 := by
  obtain ⟨Δ, h2, _⟩ := h
  intro x hx
  rw [h2]
  exact List.mem_append_right _ hx

theorem obj_delta_trans (g : DependencyMap) (ext : String)
    {s₀ s₁ s₂ : List String × List String}
    (h₁ : obj_delta g ext s₀ s₁) (h₂ : obj_delta g ext s₁ s₂) :
    obj_delta g ext s₀ s₂ := by
  obtain ⟨Δ₁, e₁, o₁, n₁, f₁, k₁, c₁⟩ := h₁
  obtain ⟨Δ₂, e₂, o₂, n₂, f₂, k₂, c₂⟩ := h₂
  refine ⟨Δ₁ ++ Δ₂, ?_, ?_, ?_, ?_, ?_, ?_⟩
  · rw [e₂, e₁, List.reverse_append, List.append_assoc]
  · rw [o₂, o₁, List.map_append, List.append_assoc]
  · refine List.Nodup.append n₁ n₂ ?_
    intro a ha₁ ha₂
    exact f₂ a ha₂ (by rw [e₁]; exact List.mem_append_left _ (by simpa using ha₁))
  · intro x hx
    rcases List.mem_append.mp hx with hx | hx
    · exact f₁ x hx
    · intro hmem
      exact f₂ x hx (by rw [e₁]; exact List.mem_append_right _ hmem)
  · intro x hx
    rcases List.mem_append.mp hx with hx | hx
    · exact k₁ x hx
    · exact k₂ x hx
  · intro x hx d hd hsome
    rcases List.mem_append.mp hx with hx | hx
    · rw [e₂]
      exact List.mem_append_right _ (c₁ x hx d hd hsome)
    · exact c₂ x hx d hd hsome

/-- Main soundness of the object-closure recursion: a successful run from a
state not containing the visited file realises an `obj_delta` step and puts
the visited file into the final seen set. -/
theorem write_object_r_sound (g : DependencyMap) (ext : String) :
    ∀ fuel filename st res,
      write_object_file_dependencies_r g ext fuel filename st = .ok res →
      filename ∉ st.2 →
      obj_delta g ext st res ∧ filename ∈ res.2 := by
  intro fuel
  induction fuel with
  | zero => intro filename st res h; exact absurd h (by simp [write_object_file_dependencies_r])
  | succ fuel ih =>
    intro filename st res h hns
    simp only [write_object_file_dependencies_r] at h
    cases hl : g.lookup filename with
    | none => rw [hl] at h; exact absurd h (by simp)
    | some e =>
      rw [hl] at h
      obtain ⟨dependencies, flag⟩ := e
      try dsimp only at h
      set out₁ := st.1 ++ [object_chunk filename] with hout₁
      set seen₁ := filename :: st.2 with hseen₁
      have hfold := fold_visit_sound
        (fun dep st =>
          if (g.lookup (strip_extension dep ++ "." ++ ext)).isSome &&
              ! st.2.contains (strip_extension dep ++ "." ++ ext) then
            write_object_file_dependencies_r g ext fuel
              (strip_extension dep ++ "." ++ ext) st
          else .ok st)
        (fun _ => True) (obj_delta g ext)
        (fun d stq => (g.lookup (mapped_dep ext d)).isSome = true → mapped_dep ext d ∈ stq.2)
        (fun s => obj_delta_refl g ext s)
        (fun a b c => obj_delta_trans g ext)
        ?_ ?_ dependencies (out₁, seen₁) res trivial h
      · obtain ⟨-, hR, hall⟩ := hfold
        obtain ⟨Δf, he, ho, hn, hf, hk, hc⟩ := hR
        have hfm : filename ∉ Δf := by
          intro hmem
          exact hf filename hmem (by rw [hseen₁]; exact List.mem_cons_self _ _)
        have hseen' : res.2 = (filename :: Δf).reverse ++ st.2 := by
          rw [he, hseen₁, List.reverse_cons, List.append_assoc]
          simp
        constructor
        · refine ⟨filename :: Δf, hseen', ?_, ?_, ?_, ?_, ?_⟩
          · rw [ho, hout₁, List.map_cons, List.append_assoc]
            simp
          · exact List.nodup_cons.mpr ⟨hfm, hn⟩
          · intro x hx
            rcases List.mem_cons.mp hx with rfl | hx
            · exact hns
            · intro hmem
              exact hf x hx (by rw [hseen₁]; exact List.mem_cons_of_mem _ hmem)
          · intro x hx
            rcases List.mem_cons.mp hx with rfl | hx
            · simp [hl]
            · exact hk x hx
          · intro x hx d hd hsome
            rcases List.mem_cons.mp hx with rfl | hx
            · have hdeps : deps_of g x = dependencies := by simp [deps_of, hl]
              rw [hdeps] at hd
              exact hall d hd hsome
            · exact hc x hx d hd hsome
        · rw [hseen']
          refine List.mem_append_left _ ?_
          rw [List.reverse_cons]
          exact List.mem_append_right _ (by simp)
      · -- hstep
        intro d s s' _ hv
        try dsimp only at hv
        by_cases hcnd : ((g.lookup (strip_extension d ++ "." ++ ext)).isSome &&
            ! s.2.contains (strip_extension d ++ "." ++ ext)) = true
        · rw [if_pos hcnd] at hv
          have hns' : (strip_extension d ++ "." ++ ext) ∉ s.2 := by
            have := (Bool.and_eq_true _ _).mp hcnd
            exact (not_contains_true_iff _ _).mp this.2
          obtain ⟨hdelta, hmem⟩ := ih (strip_extension d ++ "." ++ ext) s s' hv hns'
          exact ⟨trivial, hdelta, fun _ => by simpa [mapped_dep] using hmem⟩
        · rw [if_neg hcnd] at hv
          cases hv
          refine ⟨trivial, obj_delta_refl g ext s, ?_⟩
          intro hsome
          simp only [Bool.and_eq_true, not_contains_true_iff, mapped_dep] at hcnd hsome
          by_contra hnm
          exact hcnd ⟨hsome, hnm⟩
      · -- hpres
        intro d s s' hQ hR hsome
        exact obj_delta_seen_sub g ext hR _ (hQ hsome)

/-! ## Soundness of the source-dependency closure traversal -/

/-- What one (sub)run of `write_source_file_dependecies_r` does to its
state: the newly seen names `Δ` (visited files and written includes alike)
are pushed onto the seen set and written, one chunk each, in first-seen
order. -/
def src_delta (st st' : List String × List String) : Prop :=
  ∃ Δ : List String, st'.2 = Δ ++ st.2 ∧
    st'.1 = st.1 ++ Δ.reverse.map (fun x => x ++ " ") ∧
    Δ.Nodup ∧ (∀ x ∈ Δ, x ∉ st.2)

theorem src_delta_refl (st : List String × List String) : src_delta st st := by
  refine ⟨[], by simp, by simp, List.nodup_nil, ?_⟩
  simp

theorem src_delta_seen_sub {st st' : List String × List String} (h : src_delta st st') :
    ∀ x ∈ st.2, x ∈ st'.2 := by
  obtain ⟨Δ, h2, _⟩ := h
  intro x hx
  rw [h2]
  exact List.mem_append_right _ hx

theorem src_delta_trans {s₀ s₁ s₂ : List String × List String}
    (h₁ : src_delta s₀ s₁) (h₂ : src_delta s₁ s₂) : src_delta s₀ s₂ := by
  obtain ⟨Δ₁, e₁, o₁, n₁, f₁⟩ := h₁
  obtain ⟨Δ₂, e₂, o₂, n₂, f₂⟩ := h₂
  refine ⟨Δ₂ ++ Δ₁, ?_, ?_, ?_, ?_⟩
  · rw [e₂, e₁, List.append_assoc]
  · rw [o₂, o₁, List.reverse_append, List.map_append, List.append_assoc]
  · refine List.Nodup.append n₂ n₁ ?_
    intro a ha₂ ha₁
    exact f₂ a ha₂ (by rw [e₁]; exact List.mem_append_left _ ha₁)
  · intro x hx
    rcases List.mem_append.mp hx with hx | hx
    · intro hmem
      exact f₂ x hx (by rw [e₁]; exact List.mem_append_right _ hmem)
    · exact f₁ x hx

/-- Main soundness of the source-closure recursion. -/
theorem write_source_r_sound (g : DependencyMap) (ext : String) :
    ∀ fuel filename st res,
      write_source_file_dependecies_r g ext fuel filename st = .ok res →
      filename ∉ st.2 →
      src_delta st res ∧ filename ∈ res.2 := by
  intro fuel
  induction fuel with
  | zero => intro filename st res h; exact absurd h (by simp [write_source_file_dependecies_r])
  | succ fuel ih =>
    intro filename st res h hns
    simp only [write_source_file_dependecies_r] at h
    cases hl : g.lookup filename with
    | none => rw [hl] at h; exact absurd h (by simp)
    | some e =>
      rw [hl] at h
      obtain ⟨dependencies, flag⟩ := e
      try dsimp only at h
      set out₁ := st.1 ++ [filename ++ " "] with hout₁
      set seen₁ := filename :: st.2 with hseen₁
      have hfirst : src_delta st (out₁, seen₁) := by
        refine ⟨[filename], by simp [hseen₁], by simp [hout₁], by simp, ?_⟩
        intro x hx
        rcases List.mem_singleton.mp hx with rfl
        exact hns
      have hfold := fold_visit_sound
        (fun dep st =>
          let st := if ! st.2.contains dep then (st.1 ++ [dep ++ " "], dep :: st.2) else st
          if (g.lookup (strip_extension dep ++ "." ++ ext)).isSome &&
              ! st.2.contains (strip_extension dep ++ "." ++ ext) then
            write_source_file_dependecies_r g ext fuel
              (strip_extension dep ++ "." ++ ext) st
          else .ok st)
        (fun _ => True) src_delta (fun _ _ => True)
        (fun s => src_delta_refl s)
        (fun a b c => src_delta_trans)
        ?_ ?_ dependencies (out₁, seen₁) res trivial h
      · obtain ⟨-, hR, -⟩ := hfold
        refine ⟨src_delta_trans hfirst hR, ?_⟩
        exact src_delta_seen_sub hR filename (by rw [hseen₁]; exact List.mem_cons_self _ _)
      · -- hstep
        intro d s s' _ hv
        try dsimp only at hv
        set s₁ := if ! s.2.contains d then (s.1 ++ [d ++ " "], d :: s.2) else s with hs₁
        have hmid : src_delta s s₁ := by
          rw [hs₁]
          by_cases hcd : (! s.2.contains d) = true
          · rw [if_pos hcd]
            refine ⟨[d], by simp, by simp, by simp, ?_⟩
            intro x hx
            rcases List.mem_singleton.mp hx with rfl
            exact (not_contains_true_iff _ _).mp hcd
          · rw [if_neg hcd]
            exact src_delta_refl s
        by_cases hcnd : ((g.lookup (strip_extension d ++ "." ++ ext)).isSome &&
            ! s₁.2.contains (strip_extension d ++ "." ++ ext)) = true
        · rw [if_pos hcnd] at hv
          have hns' : (strip_extension d ++ "." ++ ext) ∉ s₁.2 := by
            have := (Bool.and_eq_true _ _).mp hcnd
            exact (not_contains_true_iff _ _).mp this.2
          obtain ⟨hdelta, -⟩ := ih (strip_extension d ++ "." ++ ext) s₁ s' hv hns'
          exact ⟨trivial, src_delta_trans hmid hdelta, trivial⟩
        · rw [if_neg hcnd] at hv
          obtain rfl : s₁ = s' := RunRes.ok.inj hv
          exact ⟨trivial, hmid, trivial⟩
      · -- hpres
        intro d s s' _ _
        trivial

/-! ## Termination and absence of panics in the closure traversals -/

theorem write_object_r_no_fail (g : DependencyMap) (ext : String) :
    ∀ fuel filename st e,
      (g.lookup filename).isSome = true →
      write_object_file_dependencies_r g ext fuel filename st ≠ .fail e := by
  intro fuel
  induction fuel with
  | zero =>
    intro filename st e _ h
    simp only [write_object_file_dependencies_r] at h
    exact RunRes.noConfusion h
  | succ fuel ih =>
    intro filename st e hsome h
    simp only [write_object_file_dependencies_r] at h
    rcases Option.isSome_iff_exists.mp hsome with ⟨⟨dependencies, flag⟩, hl⟩
    rw [hl] at h
    try dsimp only at h
    refine fold_visit_no_fail _ (fun _ => True) ?_ ?_ dependencies _ e trivial h
    · intro x s e' _ hv
      try dsimp only at hv
      by_cases hcnd : ((g.lookup (strip_extension x ++ "." ++ ext)).isSome &&
          ! s.2.contains (strip_extension x ++ "." ++ ext)) = true
      · rw [if_pos hcnd] at hv
        exact ih _ s e' ((Bool.and_eq_true _ _).mp hcnd).1 hv
      · rw [if_neg hcnd] at hv
        exact RunRes.noConfusion hv
    · intro x s s' _ _
      trivial

theorem write_source_r_no_fail (g : DependencyMap) (ext : String) :
    ∀ fuel filename st e,
      (g.lookup filename).isSome = true →
      write_source_file_dependecies_r g ext fuel filename st ≠ .fail e := by
  intro fuel
  induction fuel with
  | zero =>
    intro filename st e _ h
    simp only [write_source_file_dependecies_r] at h
    exact RunRes.noConfusion h
  | succ fuel ih =>
    intro filename st e hsome h
    simp only [write_source_file_dependecies_r] at h
    rcases Option.isSome_iff_exists.mp hsome with ⟨⟨dependencies, flag⟩, hl⟩
    rw [hl] at h
    try dsimp only at h
    refine fold_visit_no_fail _ (fun _ => True) ?_ ?_ dependencies _ e trivial h
    · intro x s e' _ hv
      try dsimp only at hv
      set s₁ := if ! s.2.contains x then (s.1 ++ [x ++ " "], x :: s.2) else s with hs₁
      by_cases hcnd : ((g.lookup (strip_extension x ++ "." ++ ext)).isSome &&
          ! s₁.2.contains (strip_extension x ++ "." ++ ext)) = true
      · rw [if_pos hcnd] at hv
        exact ih _ s₁ e' ((Bool.and_eq_true _ _).mp hcnd).1 hv
      · rw [if_neg hcnd] at hv
        exact RunRes.noConfusion hv
    · intro x s s' _ _
      trivial

theorem write_object_r_ne_fuelOut (g : DependencyMap) (ext : String) :
    ∀ fuel filename st,
      filename ∉ st.2 →
      unseen_count (g.map Prod.fst) st.2 < fuel →
      write_object_file_dependencies_r g ext fuel filename st ≠ .fuelOut := by
  intro fuel
  induction fuel with
  | zero => intro filename st _ hm; omega
  | succ fuel ih =>
    intro filename st hns hm h
    simp only [write_object_file_dependencies_r] at h
    cases hl : g.lookup filename with
    | none => rw [hl] at h; exact RunRes.noConfusion h
    | some e =>
      rw [hl] at h
      obtain ⟨dependencies, flag⟩ := e
      try dsimp only at h
      have hmemf : filename ∈ g.map Prod.fst :=
        lookup_isSome_mem_keys g filename (by simp [hl])
      have hlt : unseen_count (g.map Prod.fst) (filename :: st.2) <
          unseen_count (g.map Prod.fst) st.2 := unseen_count_lt _ _ _ hmemf hns
      refine fold_visit_no_fuelOut _
        (fun s => ∀ x ∈ filename :: st.2, x ∈ s.2) ?_ ?_ dependencies _ ?_ h
      · intro x s hI hv
        try dsimp only at hv
        by_cases hcnd : ((g.lookup (strip_extension x ++ "." ++ ext)).isSome &&
            ! s.2.contains (strip_extension x ++ "." ++ ext)) = true
        · rw [if_pos hcnd] at hv
          obtain ⟨hsome', hnc⟩ := (Bool.and_eq_true _ _).mp hcnd
          refine ih _ s ((not_contains_true_iff _ _).mp hnc) ?_ hv
          have hsub : unseen_count (g.map Prod.fst) s.2 ≤
              unseen_count (g.map Prod.fst) (filename :: st.2) :=
            unseen_count_mono _ _ _ hI
          omega
        · rw [if_neg hcnd] at hv
          exact RunRes.noConfusion hv
      · intro x s s' hI hv
        try dsimp only at hv
        by_cases hcnd : ((g.lookup (strip_extension x ++ "." ++ ext)).isSome &&
            ! s.2.contains (strip_extension x ++ "." ++ ext)) = true
        · rw [if_pos hcnd] at hv
          obtain ⟨hsome', hnc⟩ := (Bool.and_eq_true _ _).mp hcnd
          obtain ⟨hdelta, -⟩ := write_object_r_sound g ext fuel _ s s' hv
            ((not_contains_true_iff _ _).mp hnc)
          intro y hy
          exact obj_delta_seen_sub g ext hdelta y (hI y hy)
        · rw [if_neg hcnd] at hv
          cases hv
          exact hI
      · intro x hx
        exact hx

theorem write_source_r_ne_fuelOut (g : DependencyMap) (ext : String) :
    ∀ fuel filename st,
      filename ∉ st.2 →
      unseen_count (g.map Prod.fst) st.2 < fuel →
      write_source_file_dependecies_r g ext fuel filename st ≠ .fuelOut := by
  intro fuel
  induction fuel with
  | zero => intro filename st _ hm; omega
  | succ fuel ih =>
    intro filename st hns hm h
    simp only [write_source_file_dependecies_r] at h
    cases hl : g.lookup filename with
    | none => rw [hl] at h; exact RunRes.noConfusion h
    | some e =>
      rw [hl] at h
      obtain ⟨dependencies, flag⟩ := e
      try dsimp only at h
      have hmemf : filename ∈ g.map Prod.fst :=
        lookup_isSome_mem_keys g filename (by simp [hl])
      have hlt : unseen_count (g.map Prod.fst) (filename :: st.2) <
          unseen_count (g.map Prod.fst) st.2 := unseen_count_lt _ _ _ hmemf hns
      refine fold_visit_no_fuelOut _
        (fun s => ∀ x ∈ filename :: st.2, x ∈ s.2) ?_ ?_ dependencies _ ?_ h
      · intro x s hI hv
        try dsimp only at hv
        set s₁ := if ! s.2.contains x then (s.1 ++ [x ++ " "], x :: s.2) else s with hs₁
        by_cases hcnd : ((g.lookup (strip_extension x ++ "." ++ ext)).isSome &&
            ! s₁.2.contains (strip_extension x ++ "." ++ ext)) = true
        · rw [if_pos hcnd] at hv
          obtain ⟨hsome', hnc⟩ := (Bool.and_eq_true _ _).mp hcnd
          refine ih _ s₁ ((not_contains_true_iff _ _).mp hnc) ?_ hv
          have hsub₀ : ∀ y ∈ s.2, y ∈ s₁.2 := by
            rw [hs₁]
            by_cases hcd : (! s.2.contains x) = true
            · rw [if_pos hcd]; intro y hy; exact List.mem_cons_of_mem _ hy
            · rw [if_neg hcd]; intro y hy; exact hy
          have hsub : unseen_count (g.map Prod.fst) s₁.2 ≤
              unseen_count (g.map Prod.fst) (filename :: st.2) :=
            unseen_count_mono _ _ _ (fun y hy => hsub₀ y (hI y hy))
          omega
        · rw [if_neg hcnd] at hv
          exact RunRes.noConfusion hv
      · intro x s s' hI hv
        try dsimp only at hv
        set s₁ := if ! s.2.contains x then (s.1 ++ [x ++ " "], x :: s.2) else s with hs₁
        have hsub₀ : ∀ y ∈ s.2, y ∈ s₁.2 := by
          rw [hs₁]
          by_cases hcd : (! s.2.contains x) = true
          · rw [if_pos hcd]; intro y hy; exact List.mem_cons_of_mem _ hy
          · rw [if_neg hcd]; intro y hy; exact hy
        by_cases hcnd : ((g.lookup (strip_extension x ++ "." ++ ext)).isSome &&
            ! s₁.2.contains (strip_extension x ++ "." ++ ext)) = true
        · rw [if_pos hcnd] at hv
          obtain ⟨hsome', hnc⟩ := (Bool.and_eq_true _ _).mp hcnd
          obtain ⟨hdelta, -⟩ := write_source_r_sound g ext fuel _ s₁ s' hv
            ((not_contains_true_iff _ _).mp hnc)
          intro y hy
          exact src_delta_seen_sub hdelta y (hsub₀ y (hI y hy))
        · rw [if_neg hcnd] at hv
          obtain rfl : s₁ = s' := RunRes.ok.inj hv
          intro y hy
          exact hsub₀ y (hI y hy)
      · intro x hx
        exact hx

/-! ## Association-list lookup helpers -/

theorem lookup_append_some {β : Type} (l₁ l₂ : List (String × β)) (k : String) (v : β)
    (h : l₁.lookup k = some v) : (l₁ ++ l₂).lookup k = some v := by
  induction l₁ with
  | nil => simp [List.lookup] at h
  | cons a l ih =>
    by_cases hk : (k == a.1) = true
    · simp only [List.cons_append, List.lookup, hk] at h ⊢
      exact h
    · have hk' : (k == a.1) = false := by simpa using hk
      simp only [List.cons_append, List.lookup, hk'] at h ⊢
      exact ih h

theorem lookup_append_isSome {β : Type} (l₁ l₂ : List (String × β)) (k : String)
    (h : (l₁.lookup k).isSome = true) : ((l₁ ++ l₂).lookup k).isSome = true := by
  rcases Option.isSome_iff_exists.mp h with ⟨v, hv⟩
  simp [lookup_append_some l₁ l₂ k v hv]

theorem lookup_append_new {β : Type} (l : List (String × β)) (k : String) (v : β)
    (h : l.lookup k = none) : (l ++ [(k, v)]).lookup k = some v := by
  induction l with
  | nil => simp [List.lookup]
  | cons a l ih =>
    by_cases hk : (k == a.1) = true
    · simp only [List.lookup, hk] at h
      exact Option.noConfusion h
    · have hk' : (k == a.1) = false := by simpa using hk
      simp only [List.cons_append, List.lookup, hk'] at h ⊢
      exact ih h

/-! ## The library set: first-seen insertion -/

/-- First-seen insertion, the operation the `dlls` accumulator performs on
every recognised system header (named after the spec's description of the
`LibrarySet`). -/
def insert_absent (dlls : List String) (x : String) : List String :=
  if dlls.contains x then dlls else dlls ++ [x]

/-- The stream of linkage names hit by the include lines of a source, in
line order — the specification-side view of the `LibrarySet` update. -/
def system_hits (lines : List String) : List String :=
  lines.filterMap (fun line =>
    if is_include_line line then
      match extract_include_filename line with
      | some (.System f) => dll_map.lookup f
      | _ => none
    else none)

theorem insert_absent_extends (dlls : List String) (x : String) :
    dlls <+: insert_absent dlls x := by
  unfold insert_absent
  by_cases hc : dlls.contains x = true
  · rw [if_pos hc]
  · rw [if_neg hc]; exact ⟨[x], rfl⟩

theorem insert_absent_nodup (dlls : List String) (x : String) (h : dlls.Nodup) :
    (insert_absent dlls x).Nodup := by
  unfold insert_absent
  by_cases hc : dlls.contains x = true
  · rw [if_pos hc]; exact h
  · rw [if_neg hc]
    refine List.Nodup.append h (by simp) ?_
    intro a ha hax
    rcases List.mem_singleton.mp hax with rfl
    exact absurd ((contains_true_iff _ _).mpr ha) hc

theorem foldl_insert_absent_extends :
    ∀ (hits : List String) (dlls : List String), dlls <+: hits.foldl insert_absent dlls := by
  intro hits
  induction hits with
  | nil => intro dlls; exact List.prefix_refl _
  | cons x t ih =>
    intro dlls
    rw [List.foldl_cons]
    exact List.IsPrefix.trans (insert_absent_extends dlls x) (ih (insert_absent dlls x))

theorem foldl_insert_absent_nodup :
    ∀ (hits : List String) (dlls : List String), dlls.Nodup →
      (hits.foldl insert_absent dlls).Nodup := by
  intro hits
  induction hits with
  | nil => intro dlls h; exact h
  | cons x t ih =>
    intro dlls h
    rw [List.foldl_cons]
    exact ih _ (insert_absent_nodup dlls x h)

/-- Refinement of the interleaved `dlls` update by the two-pass view: the
final library list is the first-seen fold of the system-hit stream. -/
theorem process_include_lines_spec :
    ∀ lines incs dlls incs' dlls',
      process_include_lines lines incs dlls = some (incs', dlls') →
      dlls' = (system_hits lines).foldl insert_absent dlls := by
  intro lines
  induction lines with
  | nil =>
    intro incs dlls incs' dlls' h
    simp only [process_include_lines, Option.some.injEq, Prod.mk.injEq] at h
    simp [system_hits, ← h.2]
  | cons line rest ih =>
    intro incs dlls incs' dlls' h
    simp only [process_include_lines] at h
    by_cases hinc : is_include_line line = true
    · rw [if_pos hinc] at h
      cases hex : extract_include_filename line with
      | none => rw [hex] at h; exact Option.noConfusion h
      | some inc =>
        rw [hex] at h
        cases inc with
        | System f =>
          dsimp only at h
          cases hlk : dll_map.lookup f with
          | some linkage_name =>
            rw [hlk] at h
            dsimp only at h
            by_cases hct : dlls.contains linkage_name = true
            · rw [if_pos hct] at h
              rw [ih _ _ _ _ h]
              have hmem := (contains_true_iff dlls linkage_name).mp hct
              simp [system_hits, List.filterMap_cons, hinc, hex, hlk,
                insert_absent, hmem]
            · rw [if_neg hct] at h
              rw [ih _ _ _ _ h]
              have hmem : linkage_name ∉ dlls := by
                intro hm
                exact hct ((contains_true_iff dlls linkage_name).mpr hm)
              simp [system_hits, List.filterMap_cons, hinc, hex, hlk,
                insert_absent, hmem]
          | none =>
            rw [hlk] at h
            dsimp only at h
            rw [ih _ _ _ _ h]
            simp [system_hits, List.filterMap_cons, hinc, hex, hlk]
        | User f =>
          dsimp only at h
          rw [ih _ _ _ _ h]
          simp [system_hits, List.filterMap_cons, hinc, hex]
    · rw [if_neg hinc] at h
      rw [ih _ _ _ _ h]
      have : is_include_line line = false := by simpa using hinc
      simp [system_hits, List.filterMap_cons, this]

theorem get_include_dlls_prefix (source : String) (dlls : List String)
    (incs' dlls' : List String)
    (h : get_include_files_and_update_dlls source dlls = some (incs', dlls')) :
    dlls <+: dlls' ∧ (dlls.Nodup → dlls'.Nodup) := by
  rw [process_include_lines_spec _ _ _ _ _ h]
  exact ⟨foldl_insert_absent_extends _ _, foldl_insert_absent_nodup _ _⟩

/-! ## Parser soundness -/

/-- The monotone effect of one recursive parse call on its context. -/
def ctx_step (c c' : PCtx) : Prop :=
  (∀ x ∈ c.seen, x ∈ c'.seen) ∧
  (∀ k v, c.map.lookup k = some v → c'.map.lookup k = some v) ∧
  c.dlls <+: c'.dlls ∧ (c.dlls.Nodup → c'.dlls.Nodup)

theorem ctx_step_refl (c : PCtx) : ctx_step c c :=
  ⟨fun _ hx => hx, fun _ _ hv => hv, List.prefix_refl _, id⟩

theorem ctx_step_trans {a b c : PCtx} (h₁ : ctx_step a b) (h₂ : ctx_step b c) :
    ctx_step a c :=
  ⟨fun x hx => h₂.1 x (h₁.1 x hx),
   fun k v hv => h₂.2.1 k v (h₁.2.1 k v hv),
   List.IsPrefix.trans h₁.2.2.1 h₂.2.2.1,
   fun hn => h₂.2.2.2 (h₁.2.2.2 hn)⟩

theorem ctx_step_isSome {c c' : PCtx} (h : ctx_step c c') (k : String)
    (hk : (c.map.lookup k).isSome = true) : (c'.map.lookup k).isSome = true := by
  rcases Option.isSome_iff_exists.mp hk with ⟨v, hv⟩
  simp [h.2.1 k v hv]

/-- Graph closedness modulo a set of in-flight files: every dependency of
every entry is a key, or is still on the recursion stack. -/
def map_closed_upto (map : DependencyMap) (seen : List String) : Prop :=
  ∀ e ∈ map, ∀ d ∈ e.2.1, (map.lookup d).isSome = true ∨ d ∈ seen

theorem map_closed_upto_weaken {map : DependencyMap} {seen seen' : List String}
    (hsub : ∀ x ∈ seen, x ∈ seen') (h : map_closed_upto map seen) :
    map_closed_upto map seen' := by
  intro e he d hd
  rcases h e he d hd with hk | hs
  · exact Or.inl hk
  · exact Or.inr (hsub d hs)

/-- Main soundness of the graph-construction recursion: a successful call
extends the context monotonically, records the visited file in the map,
leaves every seen file either pre-seen or recorded, and preserves graph
closedness modulo the seen set. -/
theorem read_r_sound (fs : List (String × String)) :
    ∀ fuel filename ctx ctx',
      read_file_and_get_include_files_recursively fs fuel filename ctx = .ok ctx' →
      ctx_step ctx ctx' ∧ (ctx'.map.lookup filename).isSome = true ∧
      (∀ s ∈ ctx'.seen, s ∈ ctx.seen ∨ (ctx'.map.lookup s).isSome = true) ∧
      (map_closed_upto ctx.map ctx.seen → map_closed_upto ctx'.map ctx'.seen) := by
  intro fuel
  induction fuel with
  | zero =>
    intro filename ctx ctx' h
    exact absurd h (by simp [read_file_and_get_include_files_recursively])
  | succ fuel ih =>
    intro filename ctx ctx' h
    simp only [read_file_and_get_include_files_recursively] at h
    cases hfs : fs.lookup filename with
    | none => rw [hfs] at h; exact absurd h (by simp)
    | some contents =>
      rw [hfs] at h
      try dsimp only at h
      cases hgi : get_include_files_and_update_dlls contents ctx.dlls with
      | none => rw [hgi] at h; exact absurd h (by simp)
      | some p =>
        rw [hgi] at h
        obtain ⟨include_files, dlls'⟩ := p
        try dsimp only at h
        have hstep₁ : ctx_step ctx { ctx with dlls := dlls' } := by
          obtain ⟨hpre, hnd⟩ := get_include_dlls_prefix contents ctx.dlls _ _ hgi
          exact ⟨fun x hx => hx, fun k v hv => hv, hpre, hnd⟩
        cases hfv : fold_visit
            (fun inc c =>
              if (fs.lookup inc).isNone then .fail (.ioError inc)
              else if (c.map.lookup inc).isNone && ! c.seen.contains inc then
                read_file_and_get_include_files_recursively fs fuel inc
                  { c with seen := inc :: c.seen }
              else .ok c)
            include_files { ctx with dlls := dlls' } with
        | fail e => rw [hfv] at h; exact absurd h (by simp)
        | fuelOut => rw [hfv] at h; exact absurd h (by simp)
        | ok ctx₂ =>
          rw [hfv] at h
          try dsimp only at h
          have hfold := fold_visit_sound _
            (fun c => (∀ s ∈ c.seen, s ∈ ctx.seen ∨ (c.map.lookup s).isSome = true) ∧
              (map_closed_upto ctx.map ctx.seen → map_closed_upto c.map c.seen))
            ctx_step
            (fun inc c => (c.map.lookup inc).isSome = true ∨ inc ∈ c.seen)
            ctx_step_refl (fun a b c => ctx_step_trans)
            ?_ ?_ include_files { ctx with dlls := dlls' } ctx₂ ?_ hfv
          · obtain ⟨⟨hseen₂, hclosed₂⟩, hR₂, hQall⟩ := hfold
            by_cases hins : (ctx₂.map.lookup filename).isSome = true
            · rw [if_pos hins] at h
              obtain rfl : ctx₂ = ctx' := RunRes.ok.inj h
              exact ⟨ctx_step_trans hstep₁ hR₂, hins, hseen₂, hclosed₂⟩
            · rw [if_neg hins] at h
              obtain rfl : { ctx₂ with
                map := ctx₂.map ++ [(filename, (include_files, has_main_marker contents))] } =
                  ctx' := RunRes.ok.inj h
              have hnone : ctx₂.map.lookup filename = none :=
                Option.not_isSome_iff_eq_none.mp hins
              have hstep₂ : ctx_step ctx₂
                  { ctx₂ with map := ctx₂.map ++
                      [(filename, (include_files, has_main_marker contents))] } :=
                ⟨fun x hx => hx, fun k v hv => lookup_append_some _ _ k v hv,
                  List.prefix_refl _, id⟩
              refine ⟨ctx_step_trans hstep₁ (ctx_step_trans hR₂ hstep₂), ?_, ?_, ?_⟩
              · simp [lookup_append_new _ _ _ hnone]
              · intro s hs
                rcases hseen₂ s hs with hs' | hs'
                · exact Or.inl hs'
                · exact Or.inr (lookup_append_isSome _ _ _ hs')
              · intro hcl
                intro e he d hd
                rcases List.mem_append.mp he with he | he
                · rcases hclosed₂ hcl e he d hd with hk | hs
                  · exact Or.inl (lookup_append_isSome _ _ _ hk)
                  · exact Or.inr hs
                · rcases List.mem_singleton.mp he with rfl
                  rcases hQall d hd with hk | hs
                  · exact Or.inl (lookup_append_isSome _ _ _ hk)
                  · exact Or.inr hs
          · -- hstep of the include loop
            intro inc c c' hI hv
            try dsimp only at hv
            by_cases h1 : (fs.lookup inc).isNone = true
            · rw [if_pos h1] at hv; exact absurd hv (by simp)
            · rw [if_neg h1] at hv
              by_cases h2 : ((c.map.lookup inc).isNone && ! c.seen.contains inc) = true
              · rw [if_pos h2] at hv
                obtain ⟨hstep', hfn, hseen', hclosed'⟩ := ih inc _ c' hv
                have hcc₁ : ctx_step c { c with seen := inc :: c.seen } :=
                  ⟨fun x hx => List.mem_cons_of_mem _ hx, fun k v hv => hv,
                    List.prefix_refl _, id⟩
                refine ⟨⟨?_, ?_⟩, ctx_step_trans hcc₁ hstep', Or.inl hfn⟩
                · intro s hs
                  rcases hseen' s hs with hs' | hs'
                  · rcases List.mem_cons.mp hs' with rfl | hs''
                    · exact Or.inr hfn
                    · rcases hI.1 s hs'' with hx | hx
                      · exact Or.inl hx
                      · exact Or.inr (ctx_step_isSome hstep' s hx)
                  · exact Or.inr hs'
                · intro hcl
                  exact hclosed' (map_closed_upto_weaken
                    (fun x hx => List.mem_cons_of_mem _ hx) (hI.2 hcl))
              · rw [if_neg h2] at hv
                obtain rfl : c = c' := RunRes.ok.inj hv
                refine ⟨hI, ctx_step_refl c, ?_⟩
                by_cases h3 : (c.map.lookup inc).isSome = true
                · exact Or.inl h3
                · right
                  have hnone : (c.map.lookup inc).isNone = true := by
                    rw [Option.isNone_iff_eq_none]
                    exact Option.not_isSome_iff_eq_none.mp h3
                  by_contra hnm
                  apply h2
                  rw [Bool.and_eq_true]
                  exact ⟨hnone, (not_contains_true_iff _ _).mpr hnm⟩
          · -- hpres of the include loop
            intro inc c c' hQ hR
            rcases hQ with hk | hs
            · exact Or.inl (ctx_step_isSome hR inc hk)
            · exact Or.inr (hR.1 inc hs)
          · -- initial invariant
            refine ⟨?_, ?_⟩
            · intro s hs
              exact Or.inl hs
            · intro hcl
              exact hcl

/-- The graph-construction recursion cannot run out of fuel once the fuel
exceeds the number of files not yet seen: every nested visit marks a fresh
existing file as seen first. -/
theorem read_r_ne_fuelOut (fs : List (String × String)) :
    ∀ fuel filename ctx,
      unseen_count (fs.map Prod.fst) ctx.seen < fuel →
      read_file_and_get_include_files_recursively fs fuel filename ctx ≠ .fuelOut := by
  intro fuel
  induction fuel with
  | zero => intro filename ctx hm; omega
  | succ fuel ih =>
    intro filename ctx hm h
    simp only [read_file_and_get_include_files_recursively] at h
    cases hfs : fs.lookup filename with
    | none => rw [hfs] at h; exact RunRes.noConfusion h
    | some contents =>
      rw [hfs] at h
      try dsimp only at h
      cases hgi : get_include_files_and_update_dlls contents ctx.dlls with
      | none => rw [hgi] at h; exact RunRes.noConfusion h
      | some p =>
        rw [hgi] at h
        obtain ⟨include_files, dlls'⟩ := p
        try dsimp only at h
        cases hfv : fold_visit
            (fun inc c =>
              if (fs.lookup inc).isNone then .fail (.ioError inc)
              else if (c.map.lookup inc).isNone && ! c.seen.contains inc then
                read_file_and_get_include_files_recursively fs fuel inc
                  { c with seen := inc :: c.seen }
              else .ok c)
            include_files { ctx with dlls := dlls' } with
        | ok ctx₂ => rw [hfv] at h; try dsimp only at h; exact RunRes.noConfusion h
        | fail e => rw [hfv] at h; exact RunRes.noConfusion h
        | fuelOut =>
          refine fold_visit_no_fuelOut _
            (fun c => unseen_count (fs.map Prod.fst) c.seen ≤ fuel) ?_ ?_
            include_files { ctx with dlls := dlls' } ?_ hfv
          · intro inc c hI hv
            try dsimp only at hv
            cases hfo : fs.lookup inc with
            | none =>
              rw [hfo] at hv
              rw [if_pos (by rfl)] at hv
              exact RunRes.noConfusion hv
            | some c₀ =>
              rw [hfo] at hv
              rw [if_neg (by simp)] at hv
              by_cases h2 : ((c.map.lookup inc).isNone && ! c.seen.contains inc) = true
              · rw [if_pos h2] at hv
                obtain ⟨-, hnc⟩ := (Bool.and_eq_true _ _).mp h2
                have hmem : inc ∈ fs.map Prod.fst := lookup_some_mem_keys fs inc c₀ hfo
                have hlt := unseen_count_lt (fs.map Prod.fst) c.seen inc hmem
                  ((not_contains_true_iff _ _).mp hnc)
                refine ih inc { c with seen := inc :: c.seen } ?_ hv
                simp only
                omega
              · rw [if_neg h2] at hv; exact RunRes.noConfusion hv
          · intro inc c c' hI hv
            try dsimp only at hv
            cases hfo : fs.lookup inc with
            | none =>
              rw [hfo] at hv
              rw [if_pos (by rfl)] at hv
              exact absurd hv (by simp)
            | some c₀ =>
              rw [hfo] at hv
              rw [if_neg (by simp)] at hv
              by_cases h2 : ((c.map.lookup inc).isNone && ! c.seen.contains inc) = true
              · rw [if_pos h2] at hv
                obtain ⟨hstep', -, -, -⟩ := read_r_sound fs fuel inc _ c' hv
                have hsub : ∀ x ∈ c.seen, x ∈ c'.seen := by
                  intro x hx
                  exact hstep'.1 x (List.mem_cons_of_mem _ hx)
                have := unseen_count_mono (fs.map Prod.fst) c.seen c'.seen hsub
                omega
              · rw [if_neg h2] at hv
                obtain rfl : c = c' := RunRes.ok.inj hv
                exact hI
          · simp only
            omega

/-- Iterating the root loop: lookups, the library list and closedness are
carried through; closedness over an empty stack is restored after each
root because everything seen ends up in the map. -/
theorem parse_loop_sound (fs : List (String × String)) (fuel : Nat) :
    ∀ roots map dlls pr,
      parse_loop fs fuel roots map dlls = .ok pr →
      (∀ k v, map.lookup k = some v → pr.dependency_map.lookup k = some v) ∧
      dlls <+: pr.dlls ∧ (dlls.Nodup → pr.dlls.Nodup) ∧
      (map_closed_upto map [] → map_closed_upto pr.dependency_map []) := by
  intro roots
  induction roots with
  | nil =>
    intro map dlls pr h
    simp only [parse_loop] at h
    obtain rfl : ParseResult.mk map dlls = pr := RunRes.ok.inj h
    exact ⟨fun _ _ hv => hv, List.prefix_refl _, id, id⟩
  | cons root rest ih =>
    intro map dlls pr h
    simp only [parse_loop] at h
    cases hr : read_file_and_get_include_files_recursively fs fuel root ⟨map, dlls, []⟩ with
    | ok ctx =>
      rw [hr] at h
      obtain ⟨hstep, -, hseen, hclosed⟩ := read_r_sound fs fuel root _ ctx hr
      obtain ⟨hmap, hdlls, hnd, hcl⟩ := ih ctx.map ctx.dlls pr h
      refine ⟨?_, ?_, ?_, ?_⟩
      · intro k v hv
        exact hmap k v (hstep.2.1 k v hv)
      · exact List.IsPrefix.trans hstep.2.2.1 hdlls
      · intro hn
        exact hnd (hstep.2.2.2 hn)
      · intro hcl₀
        refine hcl ?_
        have hclosed' : map_closed_upto ctx.map ctx.seen := hclosed hcl₀
        intro e he d hd
        rcases hclosed' e he d hd with hk | hs
        · exact Or.inl hk
        · rcases hseen d hs with hempty | hk
          · cases hempty
          · exact Or.inl hk
    | fail e => rw [hr] at h; exact absurd h (by simp)
    | fuelOut => rw [hr] at h; exact absurd h (by simp)

theorem unseen_count_nil (names : List String) : unseen_count names [] = names.length := by
  unfold unseen_count
  have : ∀ n : String, (! List.contains [] n) = true := by
    intro n
    rfl
  rw [List.filter_eq_self.mpr (fun a _ => this a)]

theorem parse_loop_ne_fuelOut (fs : List (String × String)) :
    ∀ roots map dlls,
      parse_loop fs (fs.length + 1) roots map dlls ≠ .fuelOut := by
  intro roots
  induction roots with
  | nil =>
    intro map dlls h
    simp only [parse_loop] at h
    exact RunRes.noConfusion h
  | cons root rest ih =>
    intro map dlls h
    simp only [parse_loop] at h
    cases hr : read_file_and_get_include_files_recursively fs (fs.length + 1) root
        ⟨map, dlls, []⟩ with
    | ok ctx => rw [hr] at h; exact ih ctx.map ctx.dlls h
    | fail e => rw [hr] at h; exact RunRes.noConfusion h
    | fuelOut =>
      refine read_r_ne_fuelOut fs (fs.length + 1) root ⟨map, dlls, []⟩ ?_ hr
      have h1 : unseen_count (fs.map Prod.fst) [] = (fs.map Prod.fst).length :=
        unseen_count_nil _
      have h2 : (fs.map Prod.fst).length = fs.length := List.length_map _ _
      simp only
      omega

/-- Top-level parse soundness: on success, the library list is
duplicate-free and the dependency graph is closed. -/
theorem parse_project_sound (fs : List (String × String)) (ext : String)
    (pr : ParseResult) (h : parse_project fs ext = .ok pr) :
    pr.dlls.Nodup ∧ map_closed_upto pr.dependency_map [] := by
  obtain ⟨-, -, hnd, hcl⟩ := parse_loop_sound fs (fs.length + 1) (parse_roots fs ext) [] [] pr h
  refine ⟨hnd List.nodup_nil, hcl ?_⟩
  intro e he
  cases he

/-! ## String lemmas: `strip_extension` and friends -/

theorem take_find_idx_eq_takeWhile {α : Type} (p : α → Bool) :
    ∀ l : List α,
      (match find_idx p l with | some i => l.take i | none => l) =
        l.takeWhile (fun a => ! p a) := by
  intro l
  induction l with
  | nil => simp [find_idx]
  | cons a t ih =>
    simp only [find_idx]
    by_cases hp : p a = true
    · rw [if_pos hp]
      simp [List.takeWhile_cons, hp]
    · rw [if_neg hp]
      have hp' : p a = false := by simpa using hp
      cases hft : find_idx p t with
      | none =>
        rw [hft] at ih
        simp only [Option.map_none']
        simp [List.takeWhile_cons, hp', ← ih]
      | some i =>
        rw [hft] at ih
        simp only [Option.map_some']
        simp [List.takeWhile_cons, hp', List.take_succ_cons, ← ih]

/-- `strip_extension` is the longest dot-free leading segment of its
input. -/
theorem strip_extension_spec (s : String) :
    strip_extension s = ⟨s.data.takeWhile (fun c => ! (c == '.'))⟩ := by
  unfold strip_extension
  have h := take_find_idx_eq_takeWhile (fun c : Char => c == '.') s.data
  cases hf : find_idx (fun c : Char => c == '.') s.data with
  | none =>
    rw [hf] at h
    dsimp only at h ⊢
    apply String.ext
    exact h
  | some i =>
    rw [hf] at h
    dsimp only at h ⊢
    exact congrArg String.mk h

theorem strip_extension_no_dot (s : String) :
    ∀ c ∈ (strip_extension s).data, (c == '.') = false := by
  rw [strip_extension_spec]
  intro c hc
  have := List.mem_takeWhile_imp hc
  simpa using this

theorem takeWhile_append_all {α : Type} (p : α → Bool) :
    ∀ l₁ l₂ : List α, (∀ x ∈ l₁, p x = true) →
      (l₁ ++ l₂).takeWhile p = l₁ ++ l₂.takeWhile p := by
  intro l₁
  induction l₁ with
  | nil => intro l₂ _; simp
  | cons a t ih =>
    intro l₂ hall
    rw [List.cons_append, List.takeWhile_cons, if_pos (hall a (List.mem_cons_self a t)),
      ih l₂ (fun x hx => hall x (List.mem_cons_of_mem a hx))]
    rfl

/-- Re-stripping a rewritten dependency `stem.ext` recovers the stem: the
stem is dot-free, so the appended dot is the first one. -/
theorem strip_extension_mapped (d ext : String) :
    strip_extension (strip_extension d ++ "." ++ ext) = strip_extension d := by
  rw [strip_extension_spec (strip_extension d ++ "." ++ ext)]
  apply String.ext
  show ((strip_extension d ++ "." ++ ext).data.takeWhile fun c => ! (c == '.')) =
    (strip_extension d).data
  rw [String.data_append, String.data_append]
  rw [List.append_assoc]
  rw [takeWhile_append_all _ _ _ (fun x hx => by simp [strip_extension_no_dot d x hx])]
  have hdot : ("." : String).data ++ ext.data = '.' :: ext.data := rfl
  rw [hdot]
  have hstop : (('.' :: ext.data).takeWhile fun c => ! (c == '.')) = [] := by
    rw [List.takeWhile_cons]
    simp
  rw [hstop]
  simp

theorem append_space_injective : Function.Injective (fun s : String => s ++ " ") := by
  intro a b h
  apply String.ext
  have hd := congrArg String.data h
  dsimp only at hd
  rw [String.data_append, String.data_append] at hd
  exact List.append_cancel_right hd

theorem append_flag_injective : Function.Injective (fun s : String => "-l" ++ s) := by
  intro a b h
  apply String.ext
  have hd := congrArg String.data h
  dsimp only at hd
  rw [String.data_append, String.data_append] at hd
  exact List.append_cancel_left hd

theorem join_append (l₁ l₂ : List String) :
    String.join (l₁ ++ l₂) = String.join l₁ ++ String.join l₂ := by
  have key : ∀ (l : List String) (s : String), List.foldl (· ++ ·) s l = s ++ String.join l := by
    intro l
    induction l with
    | nil =>
      intro s
      show s = s ++ ""
      apply String.ext
      show s.data = s.data ++ ([] : List Char)
      simp
    | cons a t ih =>
      intro s
      show List.foldl (· ++ ·) (s ++ a) t = s ++ String.join (a :: t)
      rw [ih (s ++ a)]
      show s ++ a ++ String.join t = s ++ List.foldl (· ++ ·) ("" ++ a) t
      rw [ih ("" ++ a)]
      apply String.ext
      show (s.data ++ a.data) ++ (String.join t).data =
        s.data ++ (([] ++ a.data) ++ (String.join t).data)
      simp
  show List.foldl (· ++ ·) "" (l₁ ++ l₂) = String.join l₁ ++ String.join l₂
  rw [List.foldl_append, key l₂, key l₁]
  apply String.ext
  show (([] ++ (String.join l₁).data) ++ (String.join l₂).data : List Char) =
    (String.join l₁).data ++ (String.join l₂).data
  simp

/-! ## Concrete fixtures -/

/-- The end-to-end fixture of the spec: `main.c` includes `util.h` and has
an entry point; `util.c` includes `util.h` and has none. -/
def fs_e2e : List (String × String) :=
  [("main.c", "#include \"util.h\"\nint main("),
   ("util.h", ""),
   ("util.c", "#include \"util.h\"")]

/-- The parse result of `fs_e2e` (checked by evaluation below). -/
def pr_e2e : ParseResult :=
  ⟨[("util.h", ([], false)), ("main.c", (["util.h"], true)), ("util.c", (["util.h"], false))],
   []⟩

/-- A default-flavoured CLI configuration. -/
def cli_fix : Cli :=
  ⟨"main.c", "gcc", "c", "prog", "c99", "O0", ["tests"], ["benchmarks"], ["examples"]⟩

/-- One-file project used for the write-budget witnesses. -/
def fs_min : List (String × String) := [("main.c", "int main(")]

/-- Graph where `main.c` directly includes the source file `foo.c` and the
header `foo.h` is a key only through `other.c`: the closure of `main.c`
lists `foo.c` but never pulls `foo.h` in. -/
def g_c1 : DependencyMap :=
  [("main.c", (["foo.c"], true)), ("foo.c", ([], false)),
   ("other.c", (["foo.h"], false)), ("foo.h", ([], false))]

/-- Graph where `foo.h` is include-reachable from `main.c` through `a.h`
while `a.c` does not exist: `foo.c` is a key but `main.c`'s object closure
never reaches it. -/
def g_c1b : DependencyMap :=
  [("main.c", (["a.h"], true)), ("a.h", (["foo.h"], false)),
   ("foo.h", ([], false)), ("foo.c", ([], false))]

/-- The fixture of the complementary-pairing test: `main.c` includes only
`foo.h`, and `foo.c` exists. -/
def g_pair : DependencyMap :=
  [("main.c", (["foo.h"], true)), ("foo.h", ([], false)), ("foo.c", (["foo.h"], false))]

/-- A two-cycle include graph and its file-system counterpart. -/
def g_cyc : DependencyMap :=
  [("a.c", (["b.c"], true)), ("b.c", (["a.c"], false))]

def fs_cyc : List (String × String) :=
  [("a.c", "#include \"b.c\"\nint main("), ("b.c", "#include \"a.c\"")]

/-! ## Claims -/

/-- C10: `strip_extension` returns the substring before the FIRST `'.'`
anywhere in the string (the whole string when there is none), so a path
with a dotted directory such as `v2.0/main.c` yields the stem `v2`, which
then flows into every derived build-variable name, object path and compile
rule. -/
theorem C10_strip_extension_first_dot :
    (∀ s : String, strip_extension s = ⟨s.data.takeWhile (fun c => ! (c == '.'))⟩) ∧
    strip_extension "v2.0/main.c" = "v2" ∧
    strip_extension "main.c" = "main" ∧
    strip_extension "nodot" = "nodot" ∧
    object_file_dependencies_var_name (strip_extension "v2.0/main.c") = "V2_OBJECT_DEPS" ∧
    source_file_dependencies_var_name (strip_extension "v2.0/main.c") = "V2_SOURCE_DEPS" ∧
    object_chunk "v2.0/main.c" = "$(ODIR)/v2.o " ∧
    compile_rule_chunk "c" (strip_extension "v2.0/main.c") =
      "$(ODIR)/v2.o: $(ODIR) $(V2_SOURCE_DEPS)\n\t$(CC) -c v2.c -o $(ODIR)/v2.o\n\n" :=
  ⟨strip_extension_spec, by decide, by decide, by decide, by decide, by decide,
   by decide, by decide⟩

/-- C1 counterexample: in `g_c1` the source file `foo.c` is a dependency in
`main.c`'s computed closure and the same-stem header `foo.h` is a graph
key, yet `foo.h` appears nowhere in the closure (the code never maps a
source file to its header); and in `g_c1b` the header `foo.h` is
include-reachable from `main.c` with `foo.c` a graph key, yet `foo`'s
object path is absent from `main.c`'s object-dependency list. -/
theorem C1_counterexample :
    write_source_file_dependencies g_c1 "c" 5 "main.c" =
      .ok (["main.c ", "foo.c "], ["foo.c", "main.c"]) ∧
    (g_c1.lookup "foo.h").isSome = true ∧
    "foo.h " ∉ (["main.c ", "foo.c "] : List String) ∧
    "foo.h" ∉ (["foo.c", "main.c"] : List String) ∧
    write_object_file_dependencies g_c1b "c" 5 "main.c" =
      .ok (["$(ODIR)/main.o "], ["main.c"]) ∧
    "a.h" ∈ deps_of g_c1b "main.c" ∧
    "foo.h" ∈ deps_of g_c1b "a.h" ∧
    (g_c1b.lookup "foo.c").isSome = true ∧
    "$(ODIR)/foo.o " ∉ (["$(ODIR)/main.o "] : List String) := by
  refine ⟨by decide, by decide, by decide, by decide, by decide, by decide, by decide,
    by decide, by decide⟩

/-- C1 (amended): complementary pairing acts only in the header→source
direction and only on the direct includes of files the object-dependency
traversal visits: for every visited file `s` and direct include `d` of `s`
whose rewritten counterpart `stem(d).ext` is a graph key, the object path
`$(ODIR)/stem(d).o` appears in the object-dependency variable — even when
no file textually includes `stem(d).ext`.  Headers of source-file
dependencies are not pulled in, and includes of unvisited headers are not
followed. -/
theorem C1_complementary_pairing :
    ∀ (g : DependencyMap) (ext : String) (fuel : Nat) (F : String)
      (out seen : List String),
      write_object_file_dependencies g ext fuel F = .ok (out, seen) →
      ∀ s ∈ seen, ∀ d ∈ deps_of g s,
        (g.lookup (strip_extension d ++ "." ++ ext)).isSome = true →
        ("$(ODIR)/" ++ escape_folder (strip_extension d) ++ ".o ") ∈ out := by
  intro g ext fuel F out seen h s hs d hd hsome
  obtain ⟨hdelta, -⟩ := write_object_r_sound g ext fuel F ([], []) (out, seen) h (by simp)
  obtain ⟨Δ, he, ho, -, -, -, hc⟩ := hdelta
  dsimp only at he ho
  rw [List.append_nil] at he
  rw [List.nil_append] at ho
  have hmem := hc s (by rw [← List.mem_reverse, ← he]; exact hs) d hd hsome
  have hmΔ : (strip_extension d ++ "." ++ ext) ∈ Δ := by
    rw [← List.mem_reverse, ← he]
    exact hmem
  have hout : object_chunk (strip_extension d ++ "." ++ ext) ∈ out := by
    rw [ho]
    exact List.mem_map.mpr ⟨_, hmΔ, rfl⟩
  unfold object_chunk at hout
  rw [strip_extension_mapped] at hout
  exact hout

/-- C1 witness: the spec fixture — `main.c` includes `foo.h` only, and
`foo.o` lands in `main.c`'s object dependencies. -/
theorem C1_witness :
    write_object_file_dependencies g_pair "c" 5 "main.c" =
      .ok (["$(ODIR)/main.o ", "$(ODIR)/foo.o "], ["foo.c", "main.c"]) ∧
    "$(ODIR)/foo.o " ∈ (["$(ODIR)/main.o ", "$(ODIR)/foo.o "] : List String) := by
  refine ⟨by decide, ?_⟩
  have h := C1_complementary_pairing g_pair "c" 5 "main.c"
    ["$(ODIR)/main.o ", "$(ODIR)/foo.o "] ["foo.c", "main.c"] (by decide)
    "main.c" (by decide) "foo.h" (by decide) (by decide)
  have heq : ("$(ODIR)/" ++ escape_folder (strip_extension "foo.h") ++ ".o ") =
      "$(ODIR)/foo.o " := by decide
  rw [heq] at h
  exact h

/-- C2: on every graph with a mutual include cycle A↔B, the graph
construction pass (at its default fuel) and both per-file closure
traversals (at theirs) return without exhausting fuel, and any closure that
reaches A or B lists it exactly once. -/
theorem C2_cycles_terminate_once :
    ∀ (g : DependencyMap) (A B : String) (incsA incsB : List String) (fA fB : Bool),
      g.lookup A = some (incsA, fA) → B ∈ incsA →
      g.lookup B = some (incsB, fB) → A ∈ incsB →
      (∀ (fs : List (String × String)) (ext : String),
        parse_run fs ext (fs.length + 1) ≠ .fuelOut) ∧
      (∀ ext root : String,
        write_object_file_dependencies g ext (g.length + 1) root ≠ .fuelOut ∧
        write_source_file_dependencies g ext (g.length + 1) root ≠ .fuelOut) ∧
      (∀ (ext root : String) (out seen : List String) (fuel : Nat),
        write_object_file_dependencies g ext fuel root = .ok (out, seen) →
          seen.Nodup ∧ (A ∈ seen → seen.count A = 1) ∧ (B ∈ seen → seen.count B = 1)) ∧
      (∀ (ext root : String) (out seen : List String) (fuel : Nat),
        write_source_file_dependencies g ext fuel root = .ok (out, seen) →
          seen.Nodup ∧ out.Nodup ∧
          (A ∈ seen → seen.count A = 1) ∧ (B ∈ seen → seen.count B = 1)) := by
  intro g A B incsA incsB fA fB hA hBA hB hAB
  have hkeys : (g.map Prod.fst).length = g.length := List.length_map _ _
  refine ⟨?_, ?_, ?_, ?_⟩
  · intro fs ext
    exact parse_loop_ne_fuelOut fs (parse_roots fs ext) [] []
  · intro ext root
    constructor
    · refine write_object_r_ne_fuelOut g ext (g.length + 1) root ([], []) (by simp) ?_
      have := unseen_count_nil (g.map Prod.fst)
      simp only
      omega
    · refine write_source_r_ne_fuelOut g ext (g.length + 1) root ([], []) (by simp) ?_
      have := unseen_count_nil (g.map Prod.fst)
      simp only
      omega
  · intro ext root out seen fuel h
    obtain ⟨hdelta, -⟩ := write_object_r_sound g ext fuel root ([], []) (out, seen) h (by simp)
    obtain ⟨Δ, he, -, hn, -, -, -⟩ := hdelta
    dsimp only at he
    rw [List.append_nil] at he
    have hnodup : seen.Nodup := by
      rw [he]
      exact List.nodup_reverse.mpr hn
    exact ⟨hnodup, fun hm => List.count_eq_one_of_mem hnodup hm,
      fun hm => List.count_eq_one_of_mem hnodup hm⟩
  · intro ext root out seen fuel h
    obtain ⟨hdelta, -⟩ := write_source_r_sound g ext fuel root ([], []) (out, seen) h (by simp)
    obtain ⟨Δ, he, ho, hn, -⟩ := hdelta
    dsimp only at he ho
    rw [List.append_nil] at he
    rw [List.nil_append] at ho
    have hnodup : seen.Nodup := by rw [he]; exact hn
    have hout : out.Nodup := by
      rw [ho]
      exact List.Nodup.map append_space_injective (List.nodup_reverse.mpr hn)
    exact ⟨hnodup, hout, fun hm => List.count_eq_one_of_mem hnodup hm,
      fun hm => List.count_eq_one_of_mem hnodup hm⟩

/-! ## Extractor case analysis -/

/-- With both angle brackets present, the extractor takes the slice between
the first `'<'` and the first `'>'` — a panic (`none`) when the first `'>'`
comes first. -/
theorem extract_angle_branch (line : String) (s e : Nat)
    (h1 : find_idx (· == '<') line.data = some s)
    (h2 : find_idx (· == '>') line.data = some e) :
    extract_include_filename line =
      if s + 1 ≤ e then some (.System ⟨(line.data.take e).drop (s + 1)⟩) else none := by
  unfold extract_include_filename
  dsimp only
  rw [h1, h2]

/-- With an absent angle bracket, the extractor unwraps the first pair of
double quotes — a panic (`none`) when fewer than two exist. -/
theorem extract_quote_branch (line : String)
    (h : find_idx (· == '<') line.data = none ∨ find_idx (· == '>') line.data = none) :
    extract_include_filename line =
      match find_idx (· == '"') line.data with
      | none => none
      | some q1 =>
        match find_idx (· == '"') (line.data.drop (q1 + 1)) with
        | none => none
        | some d => some (.User ⟨(line.data.take (q1 + 1 + d)).drop (q1 + 1)⟩) := by
  unfold extract_include_filename
  dsimp only
  rcases h with h | h
  · rw [h]
  · rw [h]
    cases hlt : find_idx (· == '<') line.data <;> rfl

theorem find_idx_eq_none_iff {α : Type} (p : α → Bool) :
    ∀ l : List α, find_idx p l = none ↔ ∀ x ∈ l, p x = false := by
  intro l
  induction l with
  | nil => simp [find_idx]
  | cons a t ih =>
    simp only [find_idx]
    by_cases hp : p a = true
    · rw [if_pos hp]
      simp [hp]
    · rw [if_neg hp]
      have hp' : p a = false := by simpa using hp
      constructor
      · intro h x hx
        rcases List.mem_cons.mp hx with rfl | hx
        · exact hp'
        · cases hf : find_idx p t with
          | none => exact (ih.mp hf) x hx
          | some i => rw [hf] at h; exact Option.noConfusion h
      · intro h
        rw [Option.map_eq_none']
        exact ih.mpr (fun x hx => h x (List.mem_cons_of_mem a hx))

/-- A line with at most one double quote has no second quote after the
first one. -/
theorem no_second_quote_of_count_le_one :
    ∀ (cs : List Char) (q1 : Nat), cs.count '"' ≤ 1 →
      find_idx (· == '"') cs = some q1 →
      find_idx (· == '"') (cs.drop (q1 + 1)) = none := by
  intro cs
  induction cs with
  | nil => intro q1 _ h; simp [find_idx] at h
  | cons c rest ih =>
    intro q1 hcount hfind
    simp only [find_idx] at hfind
    by_cases hc : (c == '"') = true
    · rw [if_pos hc] at hfind
      obtain rfl : (0 : Nat) = q1 := Option.some.inj hfind
      have hc' : c = '"' := by simpa using hc
      have hzero : rest.count '"' = 0 := by
        rw [hc'] at hcount
        rw [List.count_cons_self] at hcount
        omega
      rw [find_idx_eq_none_iff]
      intro x hx
      have hne : x ≠ '"' := by
        intro hxeq
        have := List.count_eq_zero.mp hzero
        rw [hxeq] at hx
        exact this hx
      simpa using hne
    · rw [if_neg hc] at hfind
      cases hfr : find_idx (· == '"') rest with
      | none => rw [hfr] at hfind; exact Option.noConfusion hfind
      | some q =>
        rw [hfr] at hfind
        obtain rfl : q + 1 = q1 := by simpa using hfind
        show find_idx _ ((c :: rest).drop (q + 1 + 1)) = none
        rw [List.drop_succ_cons]
        refine ih q ?_ hfr
        have hc' : c ≠ '"' := by simpa using hc
        rw [List.count_cons_of_ne (by simpa using (Ne.symm hc'))] at hcount
        exact hcount

/-- A malformed include line — prefix check passed, an angle bracket
missing and at most one double quote — makes the extractor panic. -/
theorem extract_malformed_none (line : String)
    (hdelim : find_idx (· == '<') line.data = none ∨
      find_idx (· == '>') line.data = none)
    (hq : line.data.count '"' ≤ 1) :
    extract_include_filename line = none := by
  rw [extract_quote_branch line hdelim]
  cases hf : find_idx (· == '"') line.data with
  | none => rfl
  | some q1 =>
    dsimp only
    rw [no_second_quote_of_count_le_one line.data q1 hq hf]

/-- A line that passes the prefix check and panics in the extractor makes
the whole line pass fail (`none`), wherever it sits. -/
theorem process_include_lines_bad_line :
    ∀ (lines : List String) (incs dlls : List String) (line : String),
      line ∈ lines → is_include_line line = true →
      extract_include_filename line = none →
      process_include_lines lines incs dlls = none := by
  intro lines
  induction lines with
  | nil => intro incs dlls line hmem; cases hmem
  | cons l rest ih =>
    intro incs dlls line hmem hinc hex
    simp only [process_include_lines]
    rcases List.mem_cons.mp hmem with rfl | hmem
    · rw [if_pos hinc, hex]
    · by_cases hincl : is_include_line l = true
      · rw [if_pos hincl]
        cases hexl : extract_include_filename l with
        | none => rfl
        | some inc =>
          cases inc with
          | System f =>
            dsimp only
            cases hlk : dll_map.lookup f with
            | some linkage_name =>
              dsimp only
              by_cases hct : dlls.contains linkage_name = true
              · rw [if_pos hct]
                exact ih _ _ line hmem hinc hex
              · rw [if_neg hct]
                exact ih _ _ line hmem hinc hex
            | none =>
              dsimp only
              exact ih _ _ line hmem hinc hex
          | User f =>
            dsimp only
            exact ih _ _ line hmem hinc hex
      · rw [if_neg hincl]
        exact ih _ _ line hmem hinc hex

/-- C4 (code bug): the emitted recipes diverge from the documented grammar
at the end-to-end fixture — the standalone link recipe is
`$(CC) $(MAIN_OBJECT_DEPS) -o prog $(LFLAGS)` with no `$(CFLAGS)`, the
compile recipe has no `$(CFLAGS)`, the category link recipe has neither
`$(CFLAGS)` nor `$(LFLAGS)`, a derived link rule names target
`bin_tools_gen` while passing `-o tools/gen`, and across the whole
generated file no chunk ever references `$(CFLAGS)`. -/
theorem C4_recipes_lack_flags :
    standalone_rule_chunk cli_fix "main" =
      "\nprog: $(ODIR) $(MAIN_OBJECT_DEPS)\n\t$(CC) $(MAIN_OBJECT_DEPS) -o prog $(LFLAGS)\n\n" ∧
    contains_sub (standalone_rule_chunk cli_fix "main") "$(CFLAGS)" = false ∧
    compile_rule_chunk "c" "main" =
      "$(ODIR)/main.o: $(ODIR) $(MAIN_SOURCE_DEPS)\n\t$(CC) -c main.c -o $(ODIR)/main.o\n\n" ∧
    contains_sub (compile_rule_chunk "c" "main") "$(CFLAGS)" = false ∧
    category_rule_chunk "tests/t1" =
      "\ntests_t1: $(ODIR) $(TESTS_T1_OBJECT_DEPS)\n\t$(CC) $(TESTS_T1_OBJECT_DEPS) -o tests/t1\n\n" ∧
    contains_sub (category_rule_chunk "tests/t1") "$(LFLAGS)" = false ∧
    standalone_rule_chunk cli_fix "tools/gen" =
      "\nbin_tools_gen: $(ODIR) $(TOOLS_GEN_OBJECT_DEPS)\n\t$(CC) $(TOOLS_GEN_OBJECT_DEPS) -o tools/gen $(LFLAGS)\n\n" ∧
    (match generate_makefile_plan cli_fix pr_e2e 4 with
      | .ok chunks => chunks.all (fun c => ! contains_sub c "$(CFLAGS)")
      | _ => false) = true := by
  refine ⟨by decide, by decide, by decide, by decide, by decide, by decide, by decide,
    by decide⟩

/-- C5 counterexample: at the end-to-end fixture with a disk failing after
three file operations, the run reports failure yet the `Makefile` no
longer holds its previous content `OLD` — `File::create` truncated it
before generation began. -/
theorem C5_counterexample :
    (run_main fs_e2e cli_fix 3 "OLD").failed = true ∧
    (run_main fs_e2e cli_fix 3 "OLD").content ≠ "OLD" := by
  refine ⟨by decide, by decide⟩

/-- C5 (amended): the `Makefile` is truncated by `File::create` before any
generation output exists, so a run failing after creation leaves a
(possibly empty) prefix of the fully generated text, not the pre-existing
content; only failures before creation — parse errors or a failing create
— leave the old file intact. -/
theorem C5_truncate_then_stream :
    ∀ (fs : List (String × String)) (cli : Cli) (budget : Nat) (old : String),
      run_main fs cli 0 old = ⟨old, true⟩ ∧
      ((parse_project fs cli.extension).isOk = false →
        run_main fs cli budget old = ⟨old, true⟩) ∧
      (∀ (pr : ParseResult) (chunks : List String),
        parse_project fs cli.extension = .ok pr →
        generate_makefile_plan cli pr (pr.dependency_map.length + 1) = .ok chunks →
        1 ≤ budget →
        (run_main fs cli budget old).content = String.join (chunks.take (budget - 1)) ∧
        ∃ rest, String.join chunks = (run_main fs cli budget old).content ++ rest) := by
  intro fs cli budget old
  refine ⟨?_, ?_, ?_⟩
  · unfold run_main
    cases hp : parse_project fs cli.extension with
    | ok pr =>
      dsimp only
      unfold run_generate
      rw [if_pos rfl]
    | fail e => rfl
    | fuelOut => rfl
  · intro hnok
    unfold run_main
    cases hp : parse_project fs cli.extension with
    | ok pr =>
      rw [hp] at hnok
      exact absurd hnok (by simp [RunRes.isOk])
    | fail e => rfl
    | fuelOut => rfl
  · intro pr chunks hp hplan hb
    have hrun : run_main fs cli budget old =
        (if chunks.length ≤ budget - 1 then (⟨String.join chunks, false⟩ : MakefileState)
         else ⟨String.join (chunks.take (budget - 1)), true⟩) := by
      unfold run_main
      rw [hp]
      dsimp only
      unfold run_generate
      rw [if_neg (by omega), hplan]
    by_cases hlen : chunks.length ≤ budget - 1
    · rw [hrun, if_pos hlen]
      dsimp only
      have htake : chunks.take (budget - 1) = chunks := List.take_of_length_le hlen
      constructor
      · rw [htake]
      · refine ⟨"", ?_⟩
        apply String.ext
        rw [String.data_append]
        simp
    · rw [hrun, if_neg hlen]
      dsimp only
      refine ⟨rfl, String.join (chunks.drop (budget - 1)), ?_⟩
      rw [← join_append, List.take_append_drop]

/-- The chunk sequence `generate_makefile` produces for the one-file
project (checked by evaluation in the witness). -/
def chunks_min : List String :=
  ["CC := gcc\nCFLAGS := -Wall\nCFLAGS += -std=c99\nCFLAGS += -O0\nLFLAGS := \n",
   "\nODIR := .OBJ\n\n", "MAIN_SOURCE_DEPS := ", "main.c ", "\n", "\n",
   "all: binaries\n\n$(ODIR):\n\t@mkdir $(ODIR)\n\n", "binaries: ", "prog ", "\n\n",
   "MAIN_OBJECT_DEPS := ", "$(ODIR)/main.o ", "\n",
   "\nprog: $(ODIR) $(MAIN_OBJECT_DEPS)\n\t$(CC) $(MAIN_OBJECT_DEPS) -o prog $(LFLAGS)\n\n",
   "$(ODIR)/main.o: $(ODIR) $(MAIN_SOURCE_DEPS)\n\t$(CC) -c main.c -o $(ODIR)/main.o\n\n",
   ".PHONY: clean\nclean:\n\trm -rf .OBJ ", "prog ", "\n"]

/-- C5 witness: a failing create leaves the old content; a parse failure
(missing include) leaves the old content; a disk failing after three
operations leaves the first two chunks, a prefix of the full text. -/
theorem C5_witness :
    run_main fs_min cli_fix 0 "OLD" = ⟨"OLD", true⟩ ∧
    run_main [("a.c", "#include \"missing.h\"")] cli_fix 7 "OLD" = ⟨"OLD", true⟩ ∧
    (run_main fs_min cli_fix 3 "OLD").content = String.join (chunks_min.take 2) ∧
    ∃ rest, String.join chunks_min = (run_main fs_min cli_fix 3 "OLD").content ++ rest := by
  have h3 := (C5_truncate_then_stream fs_min cli_fix 3 "OLD").2.2
    ⟨[("main.c", ([], true))], []⟩ chunks_min (by decide) (by decide) (by omega)
  exact ⟨(C5_truncate_then_stream fs_min cli_fix 0 "OLD").1,
    (C5_truncate_then_stream [("a.c", "#include \"missing.h\"")] cli_fix 7 "OLD").2.1
      (by decide),
    h3.1, h3.2⟩

/-- C8 counterexample: the line `#include "a>b<"` contains both a `'<'`
and a `'>'`, so the claim promises a `System` classification with the text
between them; but the first `'>'` precedes the first `'<'` and the Rust
slice `line[(start+1)..end]` panics — the extractor returns nothing. -/
theorem C8_counterexample :
    (find_idx (· == '<') ("#include \"a>b<\"").data).isSome = true ∧
    (find_idx (· == '>') ("#include \"a>b<\"").data).isSome = true ∧
    extract_include_filename "#include \"a>b<\"" = none := by
  refine ⟨by decide, by decide, by decide⟩

/-- C8 (amended): if both `'<'` and `'>'` occur and the first `'<'`
precedes the first `'>'`, the extractor returns `System` of the text
strictly between them; if the first `'>'` precedes the first `'<'` it
panics (modelled `none`); if an angle bracket is absent it falls back to
the first pair of double quotes, returning `User` of the text between them,
and panics when no pair exists; `#include <math.h>` classifies as
`System "math.h"` and `#include "a.h"` as `User "a.h"`. -/
theorem C8_extractor_classification :
    (∀ (line : String) (s e : Nat),
      find_idx (· == '<') line.data = some s →
      find_idx (· == '>') line.data = some e →
      (s < e → extract_include_filename line =
        some (.System ⟨(line.data.take e).drop (s + 1)⟩)) ∧
      (e ≤ s → extract_include_filename line = none)) ∧
    (∀ (line : String) (q1 : Nat),
      (find_idx (· == '<') line.data = none ∨ find_idx (· == '>') line.data = none) →
      find_idx (· == '"') line.data = some q1 →
      (∀ d, find_idx (· == '"') (line.data.drop (q1 + 1)) = some d →
        extract_include_filename line =
          some (.User ⟨(line.data.take (q1 + 1 + d)).drop (q1 + 1)⟩)) ∧
      (find_idx (· == '"') (line.data.drop (q1 + 1)) = none →
        extract_include_filename line = none)) ∧
    (∀ line : String,
      (find_idx (· == '<') line.data = none ∨ find_idx (· == '>') line.data = none) →
      find_idx (· == '"') line.data = none →
      extract_include_filename line = none) ∧
    extract_include_filename "#include <math.h>" = some (.System "math.h") ∧
    extract_include_filename "#include \"a.h\"" = some (.User "a.h") := by
  refine ⟨?_, ?_, ?_, by decide, by decide⟩
  · intro line s e h1 h2
    rw [extract_angle_branch line s e h1 h2]
    constructor
    · intro hlt
      rw [if_pos (by omega)]
    · intro hle
      rw [if_neg (by omega)]
  · intro line q1 hdelim hf
    rw [extract_quote_branch line hdelim, hf]
    constructor
    · intro d hd
      dsimp only
      rw [hd]
    · intro hd
      dsimp only
      rw [hd]
  · intro line hdelim hf
    rw [extract_quote_branch line hdelim, hf]

/-- C8 witness: concrete classifications obtained through the amended
characterisation. -/
theorem C8_witness :
    extract_include_filename "#include <math.h>" = some (.System "math.h") ∧
    extract_include_filename "#include \"a.h\"" = some (.User "a.h") ∧
    extract_include_filename "#include \"x\"" = some (.User "x") := by
  refine ⟨C8_extractor_classification.2.2.2.1, C8_extractor_classification.2.2.2.2, ?_⟩
  have h := (C8_extractor_classification.2.1 "#include \"x\"" 9
    (Or.inl (by decide)) (by decide)).1 1 (by decide)
  rw [h]
  decide

/-- C6 counterexample: `#include foo` passes the prefix check, has no
delimiters, and processing ends in the `unwrap` panic (`none` at the line
pass, `ParseError.panicked` at the file pass) — not in the reported error
result the claim describes. -/
theorem C6_counterexample :
    is_include_line "#include foo" = true ∧
    extract_include_filename "#include foo" = none ∧
    get_include_files_and_update_dlls "#include foo" [] = none ∧
    read_file_and_get_include_files_recursively [("a.c", "#include foo")] 2 "a.c"
      ⟨[], [], []⟩ = .fail (.panicked "a.c") := by
  refine ⟨by decide, by decide, by decide, by decide⟩

/-- C6 (amended): a line that passes the include-directive prefix check but
has malformed delimiter content — an angle bracket missing and at most one
double quote — makes the extractor's `unwrap` panic: the whole file's
processing aborts with the modelled panic outcome, not with a handled,
reported error result. -/
theorem C6_malformed_line_panics :
    ∀ (fs : List (String × String)) (fuel : Nat) (file contents line : String) (ctx : PCtx),
      fs.lookup file = some contents →
      line ∈ source_lines contents →
      is_include_line line = true →
      (find_idx (· == '<') line.data = none ∨ find_idx (· == '>') line.data = none) →
      line.data.count '"' ≤ 1 →
      read_file_and_get_include_files_recursively fs (fuel + 1) file ctx =
        .fail (.panicked file) := by
  intro fs fuel file contents line ctx hfs hline hinc hdelim hq
  have hex : extract_include_filename line = none := extract_malformed_none line hdelim hq
  have hgi : get_include_files_and_update_dlls contents ctx.dlls = none :=
    process_include_lines_bad_line (source_lines contents) [] ctx.dlls line hline hinc hex
  simp only [read_file_and_get_include_files_recursively]
  rw [hfs]
  try dsimp only
  rw [hgi]

/-- C6 witness: the concrete malformed line `#include <foo` (an unclosed
angle bracket) panics the parse of the file containing it. -/
theorem C6_witness :
    read_file_and_get_include_files_recursively
      [("a.c", "#include <foo")] 5 "a.c" ⟨[], [], []⟩ = .fail (.panicked "a.c") := by
  exact C6_malformed_line_panics [("a.c", "#include <foo")] 4 "a.c" "#include <foo"
    "#include <foo" ⟨[], [], []⟩ (by decide) (by decide) (by decide)
    (Or.inr (by decide)) (by decide)

/-- The category check, spelt out: some configured identifier, once
extension-stripped, is a string prefix of the running stem or equals it. -/
theorem contained_in_partition_iff (ids : List String) (v : String) :
    contained_in_partition ids v = true ↔
      ∃ f ∈ ids, ((strip_extension f).data <+: v.data ∨ v = strip_extension f) := by
  unfold contained_in_partition
  rw [List.any_eq_true]
  constructor
  · rintro ⟨f, hf, hp⟩
    dsimp only at hp
    rw [Bool.or_eq_true] at hp
    rcases hp with hp | hp
    · exact ⟨f, hf, Or.inl (List.isPrefixOf_iff_prefix.mp hp)⟩
    · exact ⟨f, hf, Or.inr (by simpa using hp)⟩
  · rintro ⟨f, hf, hp | hp⟩
    · refine ⟨f, hf, ?_⟩
      dsimp only
      rw [Bool.or_eq_true]
      exact Or.inl (List.isPrefixOf_iff_prefix.mpr hp)
    · refine ⟨f, hf, ?_⟩
      dsimp only
      rw [Bool.or_eq_true]
      exact Or.inr (by simpa using hp)

theorem mem_partition_filter (ids : List String) (wm : List String) (v : String) :
    v ∈ wm.filter (fun x => contained_in_partition ids x) ↔
      v ∈ wm ∧ ∃ f ∈ ids, ((strip_extension f).data <+: v.data ∨ v = strip_extension f) := by
  rw [List.mem_filter, contained_in_partition_iff]

/-- C3: partition membership — an entry-point stem is placed in a named
category's list iff some configured identifier of that category, once
extension-stripped, equals the stem or is a string prefix of it;
`standalone` collects exactly the entry-point stems matching none of the
three categories; and because the three checks are independent filters, a
stem matching both a test and a benchmark identifier appears in both
lists. -/
theorem C3_partition_membership :
    ∀ (cli : Cli) (map : DependencyMap) (v : String),
      (v ∈ (PartitionedFiles.partition cli map).tests ↔
        v ∈ with_main_stems map ∧ ∃ f ∈ cli.tests,
          ((strip_extension f).data <+: v.data ∨ v = strip_extension f)) ∧
      (v ∈ (PartitionedFiles.partition cli map).benchmarks ↔
        v ∈ with_main_stems map ∧ ∃ f ∈ cli.benchmarks,
          ((strip_extension f).data <+: v.data ∨ v = strip_extension f)) ∧
      (v ∈ (PartitionedFiles.partition cli map).examples ↔
        v ∈ with_main_stems map ∧ ∃ f ∈ cli.examples,
          ((strip_extension f).data <+: v.data ∨ v = strip_extension f)) ∧
      (v ∈ (PartitionedFiles.partition cli map).standalone ↔
        v ∈ with_main_stems map ∧
        ¬ (∃ f ∈ cli.tests, ((strip_extension f).data <+: v.data ∨ v = strip_extension f)) ∧
        ¬ (∃ f ∈ cli.benchmarks,
            ((strip_extension f).data <+: v.data ∨ v = strip_extension f)) ∧
        ¬ (∃ f ∈ cli.examples,
            ((strip_extension f).data <+: v.data ∨ v = strip_extension f))) ∧
      (v ∈ with_main_stems map →
        (∃ f ∈ cli.tests, ((strip_extension f).data <+: v.data ∨ v = strip_extension f)) →
        (∃ f ∈ cli.benchmarks,
          ((strip_extension f).data <+: v.data ∨ v = strip_extension f)) →
        v ∈ (PartitionedFiles.partition cli map).tests ∧
        v ∈ (PartitionedFiles.partition cli map).benchmarks) := by
  intro cli map v
  have htest := mem_partition_filter cli.tests (with_main_stems map) v
  have hbench := mem_partition_filter cli.benchmarks (with_main_stems map) v
  have hex := mem_partition_filter cli.examples (with_main_stems map) v
  refine ⟨htest, hbench, hex, ?_, ?_⟩
  · show v ∈ (with_main_stems map).filter _ ↔ _
    rw [List.mem_filter]
    constructor
    · rintro ⟨hwm, hb⟩
      simp only [Bool.and_eq_true] at hb
      obtain ⟨⟨h1, h2⟩, h3⟩ := hb
      refine ⟨hwm, ?_, ?_, ?_⟩
      · intro hc
        have : v ∈ (with_main_stems map).filter
            (fun x => contained_in_partition cli.tests x) := htest.mpr ⟨hwm, hc⟩
        rw [not_contains_true_iff] at h1
        exact h1 this
      · intro hc
        have : v ∈ (with_main_stems map).filter
            (fun x => contained_in_partition cli.benchmarks x) := hbench.mpr ⟨hwm, hc⟩
        rw [not_contains_true_iff] at h2
        exact h2 this
      · intro hc
        have : v ∈ (with_main_stems map).filter
            (fun x => contained_in_partition cli.examples x) := hex.mpr ⟨hwm, hc⟩
        rw [not_contains_true_iff] at h3
        exact h3 this
    · rintro ⟨hwm, h1, h2, h3⟩
      refine ⟨hwm, ?_⟩
      simp only [Bool.and_eq_true]
      refine ⟨⟨?_, ?_⟩, ?_⟩
      · rw [not_contains_true_iff]
        intro hm
        exact h1 (htest.mp hm).2
      · rw [not_contains_true_iff]
        intro hm
        exact h2 (hbench.mp hm).2
      · rw [not_contains_true_iff]
        intro hm
        exact h3 (hex.mp hm).2
  · intro hwm ht hb
    exact ⟨htest.mpr ⟨hwm, ht⟩, hbench.mpr ⟨hwm, hb⟩⟩

/-- Fixture for the partition witness. -/
def g_part : DependencyMap :=
  [("tests/t1.c", ([], true)), ("main.c", ([], true)), ("xy/a.c", ([], true))]

/-- CLI whose test and benchmark identifiers both match `tests/t1`. -/
def cli_overlap : Cli :=
  ⟨"main.c", "gcc", "c", "prog", "c99", "O0", ["tests"], ["tests/t1.c"], ["examples"]⟩

/-- C3 witness: a file exactly under the configured `tests` identifier
lands in `tests`, not `standalone`; with overlapping identifiers it lands
in both `tests` and `benchmarks`. -/
theorem C3_witness :
    "tests/t1" ∈ (PartitionedFiles.partition cli_fix g_part).tests ∧
    "tests/t1" ∉ (PartitionedFiles.partition cli_fix g_part).standalone ∧
    "tests/t1" ∈ (PartitionedFiles.partition cli_overlap g_part).tests ∧
    "tests/t1" ∈ (PartitionedFiles.partition cli_overlap g_part).benchmarks := by
  have h := C3_partition_membership cli_fix g_part "tests/t1"
  have h2 := C3_partition_membership cli_overlap g_part "tests/t1"
  refine ⟨h.1.mpr ⟨by decide, "tests", by decide, Or.inl (by decide)⟩, ?_, ?_, ?_⟩
  · intro hm
    obtain ⟨-, hnot, -, -⟩ := h.2.2.2.1.mp hm
    exact hnot ⟨"tests", by decide, Or.inl (by decide)⟩
  · exact h2.1.mpr ⟨by decide, "tests", by decide, Or.inl (by decide)⟩
  · exact h2.2.1.mpr ⟨by decide, "tests/t1.c", by decide, Or.inr (by decide)⟩

/-- C7: after a successful parse every path in any graph entry's direct
includes is itself a graph key, and consequently a closure computation
rooted at a graph key never looks up an unknown key: neither closure writer
can hit its `unwrap` panic, and every file visited by the object traversal
is a key. -/
theorem C7_graph_closed :
    ∀ (fs : List (String × String)) (ext : String) (pr : ParseResult),
      parse_project fs ext = .ok pr →
      (∀ e ∈ pr.dependency_map, ∀ d ∈ e.2.1,
        (pr.dependency_map.lookup d).isSome = true) ∧
      (∀ (root : String) (fuel : Nat),
        (pr.dependency_map.lookup root).isSome = true →
        (∀ e, write_object_file_dependencies pr.dependency_map ext fuel root ≠ .fail e) ∧
        (∀ e, write_source_file_dependencies pr.dependency_map ext fuel root ≠ .fail e) ∧
        (∀ out seen,
          write_object_file_dependencies pr.dependency_map ext fuel root = .ok (out, seen) →
          ∀ v ∈ seen, (pr.dependency_map.lookup v).isSome = true)) := by
  intro fs ext pr h
  obtain ⟨-, hclosed⟩ := parse_project_sound fs ext pr h
  constructor
  · intro e he d hd
    rcases hclosed e he d hd with hk | hs
    · exact hk
    · cases hs
  · intro root fuel hroot
    refine ⟨fun e => write_object_r_no_fail _ ext fuel root ([], []) e hroot,
      fun e => write_source_r_no_fail _ ext fuel root ([], []) e hroot, ?_⟩
    intro out seen hok v hv
    obtain ⟨hdelta, -⟩ :=
      write_object_r_sound pr.dependency_map ext fuel root ([], []) (out, seen) hok (by simp)
    obtain ⟨Δ, he, -, -, -, hk, -⟩ := hdelta
    dsimp only at he
    rw [List.append_nil] at he
    exact hk v (by rw [← List.mem_reverse, ← he]; exact hv)

/-- C7 witness: the end-to-end fixture parses, its graph is closed, and
the closure rooted at `main.c` neither panics nor visits unknown keys. -/
theorem C7_witness :
    (pr_e2e.dependency_map.lookup "util.h").isSome = true ∧
    write_object_file_dependencies pr_e2e.dependency_map "c" 4 "main.c" ≠ .fail "util.c" := by
  have h := C7_graph_closed fs_e2e "c" pr_e2e (by decide)
  refine ⟨?_, (h.2 "main.c" 4 (by decide)).1 "util.c"⟩
  exact h.1 ("main.c", (["util.h"], true)) (by decide) "util.h" (by decide)

/-- C9: the library set never holds duplicates — each recognised system
header contributes exactly one `-l` flag to the LFLAGS entries however
often it is included — and the flags appear in first-seen order: within one
file the accumulator is exactly the first-seen fold of the line-ordered hit
stream, and across the traversal each recursive step only extends the list
at its end (prefix order is preserved). -/
theorem C9_library_set :
    (∀ (fs : List (String × String)) (ext : String) (pr : ParseResult),
      parse_project fs ext = .ok pr →
      pr.dlls.Nodup ∧
      ∀ lib ∈ pr.dlls,
        (pr.dlls.map (fun dll => "-l" ++ dll)).count ("-l" ++ lib) = 1) ∧
    (∀ (source : String) (dlls incs' dlls' : List String),
      get_include_files_and_update_dlls source dlls = some (incs', dlls') →
      dlls' = (system_hits (source_lines source)).foldl insert_absent dlls) ∧
    (∀ (fs : List (String × String)) (fuel : Nat) (f : String) (ctx ctx' : PCtx),
      read_file_and_get_include_files_recursively fs fuel f ctx = .ok ctx' →
      ctx.dlls <+: ctx'.dlls) := by
  refine ⟨?_, ?_, ?_⟩
  · intro fs ext pr h
    obtain ⟨hnd, -⟩ := parse_project_sound fs ext pr h
    refine ⟨hnd, ?_⟩
    intro lib hlib
    have := List.count_map_of_injective pr.dlls (fun dll => "-l" ++ dll)
      append_flag_injective lib
    rw [this]
    exact List.count_eq_one_of_mem hnd hlib
  · intro source dlls incs' dlls' h
    exact process_include_lines_spec _ _ _ _ _ h
  · intro fs fuel f ctx ctx' h
    exact (read_r_sound fs fuel f ctx ctx' h).1.2.2.1

/-- C9 witness: a project including the math and threading headers twice
each yields `LFLAGS` entries `-lm -lpthread`, one occurrence apiece. -/
theorem C9_witness :
    parse_project
      [("m.c", "#include <math.h>\n#include <pthread.h>\n#include <math.h>\nint main(")]
      "c" = .ok ⟨[("m.c", ([], true))], ["m", "pthread"]⟩ ∧
    (["m", "pthread"] : List String).Nodup ∧
    ((["m", "pthread"] : List String).map (fun dll => "-l" ++ dll)).count ("-lm") = 1 := by
  have h := C9_library_set.1
    [("m.c", "#include <math.h>\n#include <pthread.h>\n#include <math.h>\nint main(")]
    "c" ⟨[("m.c", ([], true))], ["m", "pthread"]⟩ (by decide)
  refine ⟨by decide, h.1, ?_⟩
  have hc := h.2 "m" (by decide)
  have heq : ("-l" ++ "m" : String) = "-lm" := by decide
  rw [heq] at hc
  exact hc

/-- C2 witness: the concrete two-cycle project `a.c ↔ b.c`. -/
theorem C2_witness :
    parse_run fs_cyc "c" (fs_cyc.length + 1) ≠ .fuelOut ∧
    write_object_file_dependencies g_cyc "c" (g_cyc.length + 1) "a.c" ≠ .fuelOut ∧
    (["b.c", "a.c"] : List String).count "a.c" = 1 ∧
    (["b.c", "a.c"] : List String).count "b.c" = 1 := by
  have h := C2_cycles_terminate_once g_cyc "a.c" "b.c" ["b.c"] ["a.c"] true false
    (by decide) (by decide) (by decide) (by decide)
  have hrun := h.2.2.1 "c" "a.c" ["$(ODIR)/a.o ", "$(ODIR)/b.o "] ["b.c", "a.c"] 3 (by decide)
  exact ⟨h.1 fs_cyc "c", (h.2.1 "c" "a.c").1, hrun.2.1 (by decide), hrun.2.2 (by decide)⟩

end MakeGen
